/-
Verification of the conditional rule-tree evaluator of ComfyUI-bleh
(`py/nodes/ops.py`): runtime state model, condition/comparison layer,
operation library, rule/rule-group evaluation, and the sigma→percent /
sigma→step lookups of `BlehBlockOps.patch`.

Modelling conventions (shallow embedding of the Python source):
* Python numbers (int and float) are modelled as `ℚ`; Python `==` identifies
  `1` and `1.0`, which `ℚ` preserves.  Tensors are opaque values carrying a
  shape; the tensor math library (`latent_utils`, `torch`) is an external
  collaborator and is modelled as a record of uninterpreted functions
  (`TensorLib`).
* The mutable state dict is an association list from `SKey` to `Value`,
  updated in place (first occurrence) exactly like a Python dict.
  The scratch keys `f"temp{Operation.IDX}"` are modelled by the dedicated
  constructor `SKey.temp n` (and the string stored under `"target"` that
  names such a key by `Value.tkey n`): in the source these strings are
  pairwise distinct and distinct from the fixed keys `"h"`, `"hsp"`,
  `"target"`, `"sigma"`, `"sigma_next"`, which the constructor encoding
  captures directly.
* Fallible Python code (KeyError, TypeError, ValueError, NameError,
  AttributeError, RuntimeError, IndexError, ZeroDivisionError) is modelled
  with `Except Err`.  The class variable `Operation.IDX` is threaded through
  evaluation as an explicit counter.
-/
import Mathlib

namespace Bleh

/-- Python exception kinds raised by the evaluator. -/
inductive Err where
  | keyError
  | typeError
  | valueError
  | nameError
  | attributeError
  | runtimeError
  | indexError
  | zeroDivisionError
deriving DecidableEq

/-- Opaque tensor value: a shape plus an identity tag.  All tensor math is
delegated to the external `TensorLib`. -/
structure Tensor where
  shape : List Int
  tid : Nat
deriving DecidableEq

/-- Values stored in the runtime state dict.  `tkey n` is the string
`f"temp{n}"` naming a scratch slot (see header comment). -/
inductive Value where
  | pynone
  | num (q : ℚ)
  | vstr (s : String)
  | tensor (t : Tensor)
  | tkey (n : Nat)
deriving DecidableEq

/-- `CondType` enum from the source. -/
inductive CondType where
  | TYPE
  | BLOCK
  | STAGE
  | FROM_PERCENT
  | TO_PERCENT
  | PERCENT
  | STEP
  | STEP_EXACT
  | FROM_STEP
  | TO_STEP
  | STEP_INTERVAL
  | COND
deriving DecidableEq

/-- `CompareType` enum from the source. -/
inductive CompareType where
  | EQ
  | NE
  | GT
  | LT
  | GE
  | LE
  | NOT
  | OR
  | AND
deriving DecidableEq

/-- Keys of the runtime state dict: `CondType` enum keys, fixed string keys
(`"h"`, `"hsp"`, `"target"`, `"sigma"`, `"sigma_next"`), and scratch keys
`f"temp{n}"`. -/
inductive SKey where
  | ct (c : CondType)
  | s (name : String)
  | temp (n : Nat)
deriving DecidableEq

/-- The runtime state: a Python dict modelled as an association list. -/
abbrev Dict := List (SKey × Value)

namespace Dict

/-- `state[k]`, as an `Option` (a `KeyError` is raised by callers on `none`). -/
def get : Dict → SKey → Option Value
  | [], _ => none
  | (k', v) :: rest, k => if k' = k then some v else get rest k

/-- `state[k] = v`: replace the first binding of `k` in place, else append. -/
def set : Dict → SKey → Value → Dict
  | [], k, v => [(k, v)]
  | (k', v') :: rest, k, v =>
      if k' = k then (k, v) :: rest else (k', v') :: set rest k v

/-- `del state[k]`: remove the first binding of `k`. -/
def del : Dict → SKey → Dict
  | [], _ => []
  | (k', v') :: rest, k => if k' = k then rest else (k', v') :: del rest k

/-- The keys of the dict in insertion order. -/
def keys (d : Dict) : List SKey := d.map Prod.fst

/-- Python dicts never contain a key twice; our update operations preserve
this invariant. -/
def NoDupKeys (d : Dict) : Prop := d.keys.Nodup

instance : DecidablePred NoDupKeys := fun d =>
  inferInstanceAs (Decidable d.keys.Nodup)

end Dict

/-! ## Python value comparison semantics -/

/-- Python `==` between runtime values.  Within the value universe that
actually reaches comparisons (numbers, strings, `None`), Python equality is
exactly structural equality here; `ℚ` identifies `1` and `1.0` as Python
does.  (A `tkey` value is the string `f"temp{n}"`; it is only ever compared
against the fixed slot names, from which it always differs.) -/
def valueEq (a b : Value) : Bool := a = b

/-- Python relational/equality operators (`operator.eq`/`ne`/`gt`/`lt`/
`ge`/`le`) applied between two runtime values, as in `Compare.test`.
Mixed-type ordering comparisons raise `TypeError` in Python; tensors never
reach this code.  The `NOT`/`OR`/`AND` members are dispatched before the
operator table is consulted, so they are unreachable here. -/
def pyCompare : CompareType → Value → Value → Except Err Bool
  | .EQ, .tensor _, _ => .error .typeError
  | .EQ, _, .tensor _ => .error .typeError
  | .EQ, a, b => .ok (valueEq a b)
  | .NE, .tensor _, _ => .error .typeError
  | .NE, _, .tensor _ => .error .typeError
  | .NE, a, b => .ok (!valueEq a b)
  | .GT, .num a, .num b => .ok (decide (a > b))
  | .GT, .vstr a, .vstr b => .ok (decide (b < a))
  | .LT, .num a, .num b => .ok (decide (a < b))
  | .LT, .vstr a, .vstr b => .ok (decide (a < b))
  | .GE, .num a, .num b => .ok (decide (a ≥ b))
  | .GE, .vstr a, .vstr b => .ok (decide (b ≤ a))
  | .LE, .num a, .num b => .ok (decide (a ≤ b))
  | .LE, .vstr a, .vstr b => .ok (decide (a ≤ b))
  | _, _, _ => .error .typeError

/-- Python `%` (modulo) between runtime values; for numbers
`a % b = a - b * ⌊a / b⌋` (sign follows the divisor), `b = 0` raises
`ZeroDivisionError`. -/
def pyMod : Value → Value → Except Err Value
  | .num a, .num b =>
      if b = 0 then .error .zeroDivisionError
      else .ok (.num (a - b * ⌊a / b⌋))
  | _, _ => .error .typeError

/-- Python set membership `x in s` (decided by `==` against each element;
the source stores condition values in a `set`, whose membership semantics
do not depend on insertion order). -/
def memberOf (x : Value) (vals : List Value) : Bool :=
  vals.any (fun v => valueEq x v)

/-! ## Conditions and comparisons

The source has three mutually recursive classes: `Compare` (leaf form with
a relational operator, or composite `NOT`/`AND`/`OR` over a tuple of
`ConditionGroup`s), `Condition` (a membership / threshold test, or a
wrapped `Compare` for `CondType.COND`), and `ConditionGroup` (a tuple of
`Condition`s).  Here the `Compare` layer is flattened into the `Condition`
inductive: `cmpLeaf`/`cmpComp` are a `Condition` of type `COND` wrapping
the corresponding `Compare` node, and composite `Compare`s hold
`List (List Condition)`, i.e. a list of `ConditionGroup`s. -/

inductive Condition where
  /-- A `Condition` whose value is a set (every `CondType` except `COND`). -/
  | prim (typ : CondType) (vals : List Value)
  /-- A `COND` condition wrapping a leaf `Compare` (relational operator,
  state field, tuple of comparison values). -/
  | cmpLeaf (op : CompareType) (field : CondType) (vals : List Value)
  /-- A `COND` condition wrapping a composite `Compare`
  (`NOT`/`AND`/`OR` over a tuple of `ConditionGroup`s). -/
  | cmpComp (op : CompareType) (groups : List (List Condition))

/-- A `ConditionGroup` is a tuple of conditions. -/
abbrev ConditionGroup := List Condition

/-- `all(opfn(fieldval, val) for val in vals)` with Python generator
semantics: stop at the first `False`, propagate the first exception. -/
def allRel (op : CompareType) (fieldval : Value) : List Value → Except Err Bool
  | [] => .ok true
  | v :: rest =>
      match pyCompare op fieldval v with
      | .error e => .error e
      | .ok false => .ok false
      | .ok true => allRel op fieldval rest

/-- `all(step % v == 0 for v in vals)` with generator semantics. -/
def allModZero (step : Value) : List Value → Except Err Bool
  | [] => .ok true
  | v :: rest =>
      match pyMod step v with
      | .error e => .error e
      | .ok m => if valueEq m (.num 0) then allModZero step rest else .ok false

mutual

/-- `Condition.test` from the source.  The `cmpLeaf`/`cmpComp` cases are
`Compare.test` (reached via `CondType.COND`). -/
def Condition.test : Condition → Dict → Except Err Bool
  | .prim typ vals, state =>
      match typ with
      | .FROM_PERCENT =>
          match state.get (.ct .PERCENT) with
          | none => .error .keyError
          | some pct => allRel .GE pct vals
      | .TO_PERCENT =>
          match state.get (.ct .PERCENT) with
          | none => .error .keyError
          | some pct => allRel .LE pct vals
      | .FROM_STEP =>
          match state.get (.ct .STEP) with
          | none => .error .keyError
          | some step =>
              match pyCompare .GT step (.num 0) with
              | .error e => .error e
              | .ok false => .ok false
              | .ok true => allRel .GE step vals
      | .TO_STEP =>
          match state.get (.ct .STEP) with
          | none => .error .keyError
          | some step =>
              match pyCompare .GT step (.num 0) with
              | .error e => .error e
              | .ok false => .ok false
              | .ok true => allRel .LE step vals
      | .STEP_INTERVAL =>
          match state.get (.ct .STEP) with
          | none => .error .keyError
          | some step =>
              match pyCompare .GT step (.num 0) with
              | .error e => .error e
              | .ok false => .ok false
              | .ok true => allModZero step vals
      | _ =>
          -- default branch: `state[self.typ] in self.value` (a `prim` with
          -- typ `COND` cannot be built by the source constructor; reading
          -- the never-present `COND` key would raise `KeyError`, which this
          -- branch reproduces).
          match state.get (.ct typ) with
          | none => .error .keyError
          | some x => .ok (memberOf x vals)
  | .cmpLeaf op field vals, state =>
      match state.get (.ct field) with
      | none => .error .keyError
      | some fieldval => allRel op fieldval vals
  | .cmpComp op groups, state =>
      match op with
      | .NOT => allNotGroups groups state
      | .AND => allGroups groups state
      | .OR => anyGroups groups state
      | _ => .error .typeError  -- unreachable: composite built only for NOT/AND/OR

/-- `all(not v.test(state) for v in self.value)` over condition groups. -/
def allNotGroups : List (List Condition) → Dict → Except Err Bool
  | [], _ => .ok true
  | g :: rest, state =>
      match ConditionGroup.test g state with
      | .error e => .error e
      | .ok true => .ok false
      | .ok false => allNotGroups rest state

/-- `all(v.test(state) for v in self.value)` over condition groups. -/
def allGroups : List (List Condition) → Dict → Except Err Bool
  | [], _ => .ok true
  | g :: rest, state =>
      match ConditionGroup.test g state with
      | .error e => .error e
      | .ok false => .ok false
      | .ok true => allGroups rest state

/-- `any(v.test(state) for v in self.value)` over condition groups. -/
def anyGroups : List (List Condition) → Dict → Except Err Bool
  | [], _ => .ok false
  | g :: rest, state =>
      match ConditionGroup.test g state with
      | .error e => .error e
      | .ok true => .ok true
      | .ok false => anyGroups rest state

/-- `ConditionGroup.test`: short-circuit conjunction of the member
conditions in declaration order. -/
def ConditionGroup.test : List Condition → Dict → Except Err Bool
  | [], _ => .ok true
  | c :: rest, state =>
      match Condition.test c state with
      | .error e => .error e
      | .ok false => .ok false
      | .ok true => ConditionGroup.test rest state

end

/-! ## Numeric helpers from Python -/

/-- Python `round()` to an integer: round half to even. -/
def pyRound (q : ℚ) : Int :=
  let f := ⌊q⌋
  let r := q - f
  if r < 1 / 2 then f
  else if 1 / 2 < r then f + 1
  else if f % 2 = 0 then f else f + 1

/-- Python `int()` on a number: truncation toward zero. -/
def truncInt (q : ℚ) : Int := if q < 0 then -⌊-q⌋ else ⌊q⌋

/-- Python list indexing `t.shape[i]` with negative-index wrap-around;
out of range raises `IndexError`. -/
def shapeGet (t : Tensor) (i : Int) : Except Err Int :=
  let n : Int := t.shape.length
  let j := if i < 0 then i + n else i
  if 0 ≤ j ∧ j < n then .ok (t.shape.getD j.toNat 0) else .error .indexError

/-! ## The tensor math library

`scale_samples`, `BLENDING_MODES`, `FILTER_PRESETS`, `ffilter`,
`antialias_tensor` (from `latent_utils`) and the `torch` primitives are
external collaborators (out of scope per the spec); they are modelled as a
record of uninterpreted functions.  None of the verified properties depend
on their numeric behaviour. -/
structure TensorLib where
  /-- `scale_samples(t, width, height, mode, mode_h, antialias_size)`;
  `none` for `mode_h` models the keyword argument being omitted. -/
  scale_samples : Tensor → Int → Int → String → Option String → Int → Tensor
  /-- `torch.flip(t, dims=(d,))`. -/
  flip : Tensor → Int → Tensor
  /-- `torch.rot90(t, count, dims=(3, 2))`. -/
  rot90 : Tensor → Int → Tensor
  /-- `torch.roll(t, amount, dims=dims)`. -/
  roll : Tensor → Int → List Int → Tensor
  /-- `BLENDING_MODES[mode](a, b, factor)` (total: an unknown mode is never
  exercised by the verified properties). -/
  blend : String → Tensor → Tensor → ℚ → Tensor
  /-- `ffilter(t, threshold, scale, filt, strength)`. -/
  ffilter : Tensor → ℚ → ℚ → List (List ℚ) → ℚ → Tensor
  /-- `FILTER_PRESETS` (`none` models a missing key, i.e. `KeyError`). -/
  filter_presets : String → Option (List (List ℚ))
  /-- `t[:, :n]`. -/
  sliceChannels : Tensor → Int → Tensor
  /-- `t[:, :n] = r` (the resulting whole tensor). -/
  setSliceChannels : Tensor → Int → Tensor → Tensor
  /-- `hidden_mean(h)` from the source (pure tensor math, delegated). -/
  hidden_mean : Tensor → Tensor
  /-- `t * q` for a scalar `q`. -/
  mulScalar : Tensor → ℚ → Tensor
  /-- `t + q` for a scalar `q`. -/
  addScalar : Tensor → ℚ → Tensor
  /-- elementwise `a * b`. -/
  mulT : Tensor → Tensor → Tensor
  /-- elementwise `a + b`. -/
  addT : Tensor → Tensor → Tensor
  /-- `1 - m`. -/
  oneMinus : Tensor → Tensor
  /-- `antialias_tensor(t, size)`. -/
  antialias_tensor : Tensor → Int → Tensor
  /-- `torch.randn_like(t)` (the sampled noise, as a function of the input:
  randomness is irrelevant to every verified property). -/
  randn_like : Tensor → Tensor
  /-- `torch.tensor(mask)` from a row-major list of rows. -/
  tensorOfRows : List (List ℚ) → Tensor
  /-- `m.view(1, 1, *m.shape)`. -/
  view11 : Tensor → Tensor
  /-- `m.broadcast_to(shape)`. -/
  broadcast_to : Tensor → List Int → Tensor

/-! ## Operations -/

/-- First argument of a `ROLL` operation: a direction name, a single
dimension, or a list of dimensions. -/
inductive RollDims where
  | dir (s : String)
  | idx (i : Int)
  | dims (l : List Int)

/-- Second argument of a `ROLL` operation: integer shift or fractional
(float) shift. -/
inductive RollAmount where
  | int (n : Int)
  | float (q : ℚ)

/-- One column entry of a hand-authored mask row: a plain value or a
run-length-encoded `[count, value]` pair. -/
inductive MaskCol where
  | v (q : ℚ)
  | rle (count : Nat) (q : ℚ)

/-- One row of a mask example, with an optional `["rep", n, ...]` repeat
prefix. -/
structure MaskRow where
  rep : Option Int
  cols : List MaskCol

/-- Expand the column entries of one row (`row += (col[1],) * col[0]`). -/
def expandCols : List MaskCol → List ℚ
  | [] => []
  | .v q :: rest => q :: expandCols rest
  | .rle n q :: rest => List.replicate n q ++ expandCols rest

/-- Repeat count of a row (`repeats = 1` unless a `rep` prefix is given;
`(row,) * n` with a non-positive `n` yields no rows). -/
def MaskRow.repeats (r : MaskRow) : Nat :=
  match r.rep with
  | none => 1
  | some n => n.toNat

/-- Expand a mask definition into its row-major value grid
(`mask += (row,) * repeats`). -/
def expandMask : List MaskRow → List (List ℚ)
  | [] => []
  | r :: rest => List.replicate r.repeats (expandCols r.cols) ++ expandMask rest

/-- The operation library (`OpType` plus the per-kind argument tuple,
which the source validates at construction time).

In `BLEND_OP` / `MASK_EXAMPLE_OP`, a sub-entry written as an operation
list is `some op`; a sub-entry written as a dict (nested rule form) is
`Option.none`: on first use the source compiles it with `Rule.from_dict`,
which returns a *tuple* of rules, and then calls `.eval` on that tuple,
raising `AttributeError` before the rule content is ever used (so the
content needs no representation). -/
inductive Operation where
  | SLICE (scale strength blendAmt : ℚ) (mode : String) (useHiddenMean : Bool)
  | FFILTER (scale : ℚ) (filt : String ⊕ List (List ℚ)) (strength threshold : ℚ)
  | SCALE_TORCH (mode : String) (scaleW scaleH : ℚ) (antialias : Bool)
  | UNSCALE_TORCH (mode : String) (antialias : Bool)
  | SCALE (modeW modeH : String) (scaleW scaleH : ℚ) (antialiasSize : Int)
  | UNSCALE (modeW modeH : String) (antialiasSize : Int)
  | FLIP (direction : String)
  | ROT90 (count : Int)
  | ROLL_CHANNELS (count : Int)
  | ROLL (dims : RollDims) (amount : RollAmount)
  | TARGET_SKIP (flag : Bool)
  | MULTIPLY (factor : ℚ)
  | BLEND_OP (blendAmt : ℚ) (mode : String) (subops : List (Option Operation))
  | MASK_EXAMPLE_OP (scaleMode : String) (antialiasSize : Int)
      (maskdef : List MaskRow) (subops : List (Option Operation))
  | ANTIALIAS (size : Int)
  | NOISE (strength : ℚ)
  | DEBUG

/-- `state[k]` with the `KeyError` made explicit. -/
def getKey (state : Dict) (k : SKey) : Except Err Value :=
  match state.get k with
  | none => .error .keyError
  | some v => .ok v

/-- Resolve the value stored under `"target"` to the state key it names
(`"h"`, `"hsp"`, or a scratch name `f"temp{n}"`). -/
def targetKeyOf : Value → Except Err SKey
  | .vstr s => .ok (.s s)
  | .tkey n => .ok (.temp n)
  | _ => .error .typeError

/-- Attribute access (`.shape`, `.clone()`, …) on a state value: only
tensors support it. -/
def asTensor : Value → Except Err Tensor
  | .tensor t => .ok t
  | _ => .error .attributeError

/-- The trailing `state[state["target"]] = out` of `Operation.eval`
(the `"target"` value is re-read at that point). -/
def writeTarget (state : Dict) (out : Tensor) : Except Err Dict := do
  let tv ← getKey state (.s "target")
  let tk ← targetKeyOf tv
  .ok (state.set tk (.tensor out))

mutual

/-- `Operation.eval` from the source.  `IDX` is the class variable
`Operation.IDX` threaded as an explicit counter; the returned pair is the
state dict (mutated in place in the source) and the updated counter. -/
def Operation.eval (TL : TensorLib) (op : Operation) (IDX : Nat) (state : Dict) :
    Except Err (Dict × Nat) := do
  -- t = out = state[state["target"]]
  let tv ← getKey state (.s "target")
  let tk ← targetKeyOf tv
  let t0 ← getKey state tk
  match op with
  | .SCALE_TORCH mode scaleW scaleH antialias => do
      let t ← asTensor t0
      let w ← shapeGet t (-1)
      let h ← shapeGet t (-2)
      let out := TL.scale_samples t (pyRound (w * scaleW)) (pyRound (h * scaleH))
        mode none (if antialias then 8 else 0)
      let state' ← writeTarget state out
      .ok (state', IDX)
  | .UNSCALE_TORCH mode antialias => do
      let hspv ← getKey state (.s "hsp")
      if hspv = .pynone then .error .valueError
      else do
        let t ← asTensor t0
        let hsp ← asTensor hspv
        let tw ← shapeGet t (-1)
        let hw ← shapeGet hsp (-1)
        let th ← shapeGet t (-2)
        let hh ← shapeGet hsp (-2)
        if tw = hw ∧ th = hh then .ok (state, IDX)
        else do
          let out := TL.scale_samples t hw hh mode none (if antialias then 8 else 0)
          let state' ← writeTarget state out
          .ok (state', IDX)
  | .SCALE modeW modeH scaleW scaleH antialiasSize => do
      let t ← asTensor t0
      let w ← shapeGet t (-1)
      let h ← shapeGet t (-2)
      let out := TL.scale_samples t (pyRound (w * scaleW)) (pyRound (h * scaleH))
        modeW (some modeH) antialiasSize
      let state' ← writeTarget state out
      .ok (state', IDX)
  | .UNSCALE modeW modeH antialiasSize => do
      let hspv ← getKey state (.s "hsp")
      if hspv = .pynone then .error .valueError
      else do
        let t ← asTensor t0
        let hsp ← asTensor hspv
        let tw ← shapeGet t (-1)
        let hw ← shapeGet hsp (-1)
        let th ← shapeGet t (-2)
        let hh ← shapeGet hsp (-2)
        if tw = hw ∧ th = hh then .ok (state, IDX)
        else do
          let out := TL.scale_samples t hw hh modeW (some modeH) antialiasSize
          let state' ← writeTarget state out
          .ok (state', IDX)
  | .FLIP direction => do
      let t ← asTensor t0
      let state' ← writeTarget state (TL.flip t (if direction = "v" then 2 else 3))
      .ok (state', IDX)
  | .ROT90 count => do
      let t ← asTensor t0
      let state' ← writeTarget state (TL.rot90 t count)
      .ok (state', IDX)
  | .ROLL_CHANNELS count => do
      let t ← asTensor t0
      let state' ← writeTarget state (TL.roll t count [1])
      .ok (state', IDX)
  | .ROLL dims amount => do
      let t ← asTensor t0
      let dl ← (match dims with
        | .dir s =>
            match s with
            | "h" | "horizontal" => .ok [(3 : Int)]
            | "v" | "vertical" => .ok [(2 : Int)]
            | "c" | "channels" => .ok [(1 : Int)]
            | _ => .error .valueError  -- "Bad roll direction"
        | .idx i => .ok [i]
        | .dims l => .ok l)
      match amount with
      | .int n => do
          let state' ← writeTarget state (TL.roll t n dl)
          .ok (state', IDX)
      | .float q =>
          if q < 1 ∧ -1 < q then
            if 1 < dl.length then .error .valueError  -- no-percent-with-multi-dims
            else do
              let d0 ← (match dl with
                | [] => .error .indexError
                | d :: _ => .ok d)
              let sz ← shapeGet t d0
              let state' ← writeTarget state (TL.roll t (truncInt (sz * q)) dl)
              .ok (state', IDX)
          else .error .typeError  -- torch.roll rejects a float shift
  | .TARGET_SKIP flag =>
      match state.get (.s "hsp") with
      | none
      | some .pynone =>
          if tv = .vstr "hsp" then .ok (state.set (.s "target") (.vstr "h"), IDX)
          else .ok (state, IDX)
      | some _ =>
          .ok (state.set (.s "target") (.vstr (if flag then "hsp" else "h")), IDX)
  | .FFILTER scale filt strength threshold => do
      let t ← asTensor t0
      let fl ← (match filt with
        | .inl name =>
            match TL.filter_presets name with
            | none => .error Err.keyError
            | some f => .ok f
        | .inr f => .ok f)
      let state' ← writeTarget state (TL.ffilter t threshold scale fl strength)
      .ok (state', IDX)
  | .SLICE scale strength blendAmt mode useHiddenMean => do
      let t ← asTensor t0
      let ch ← shapeGet t 1
      let sliceSize := pyRound (ch * scale)
      let sliced := TL.sliceChannels t sliceSize
      let result :=
        if useHiddenMean then
          TL.mulT sliced (TL.addScalar (TL.mulScalar (TL.hidden_mean t) (strength - 1)) 1)
        else TL.mulScalar sliced strength
      let result := if blendAmt ≠ 1 then TL.blend mode sliced result blendAmt else result
      let state' ← writeTarget state (TL.setSliceChannels t sliceSize result)
      .ok (state', IDX)
  | .MULTIPLY factor => do
      let t ← asTensor t0
      let state' ← writeTarget state (TL.mulScalar t factor)
      .ok (state', IDX)
  | .BLEND_OP blendAmt mode subops => do
      let t ← asTensor t0  -- t.clone()
      let tempname := IDX
      let oldTarget := tv  -- old_target = state["target"]
      let state1 := state.set (.temp tempname) (.tensor t)
      match evalSubops TL subops tempname (IDX + 1) state1 with
      | .error e => .error e
      | .ok (state2, IDX2) => do
          let state3 := state2.set (.s "target") oldTarget
          let tmpv ← getKey state3 (.temp tempname)
          let tmp ← asTensor tmpv
          let out := TL.blend mode t tmp blendAmt
          let state4 := state3.del (.temp tempname)
          let state5 ← writeTarget state4 out
          .ok (state5, IDX2)
  | .MASK_EXAMPLE_OP scaleMode antialiasSize maskdef subops => do
      let t ← asTensor t0
      let mask0 := TL.tensorOfRows (expandMask maskdef)
      let w ← shapeGet t (-1)
      let h ← shapeGet t (-2)
      let mask := TL.broadcast_to
        (TL.scale_samples (TL.view11 mask0) w h scaleMode none antialiasSize) t.shape
      let tempname := IDX
      let oldTarget := tv
      let state1 := state.set (.temp tempname) (.tensor t)
      match evalSubops TL subops tempname (IDX + 1) state1 with
      | .error e => .error e
      | .ok (state2, IDX2) => do
          let state3 := state2.set (.s "target") oldTarget
          let tmpv ← getKey state3 (.temp tempname)
          let tmp ← asTensor tmpv
          let out := TL.addT (TL.mulT tmp mask) (TL.mulT t (TL.oneMinus mask))
          let state4 := state3.del (.temp tempname)
          let state5 ← writeTarget state4 out
          .ok (state5, IDX2)
  | .ANTIALIAS size => do
      let t ← asTensor t0
      let state' ← writeTarget state (TL.antialias_tensor t size)
      .ok (state', IDX)
  | .NOISE strength => do
      let t ← asTensor t0
      let noise := TL.randn_like t
      let sv ← getKey state (.s "sigma")
      let snv ← getKey state (.s "sigma_next")
      let stepScale ← (match sv, snv with
        | .num a, .num b => .ok (a - b)
        | _, _ => .error Err.typeError)
      let state' ← writeTarget state (TL.addT t (TL.mulScalar noise (stepScale * strength)))
      .ok (state', IDX)
  | .DEBUG => do
      -- printing only; the trailing write stores the unchanged tensor back
      let t ← asTensor t0
      let state' ← writeTarget state t
      .ok (state', IDX)

/-- The sub-operation loop of `BLEND_OP` / `MASK_EXAMPLE_OP`:
before each entry, `state["target"] = tempname`; a dict entry
(`Option.none`) raises `AttributeError` (see `Operation`). -/
def evalSubops (TL : TensorLib) (subops : List (Option Operation))
    (tempname IDX : Nat) (state : Dict) : Except Err (Dict × Nat) :=
  match subops with
  | [] => .ok (state, IDX)
  | so :: rest =>
      let state1 := state.set (.s "target") (.tkey tempname)
      match so with
      | none => .error .attributeError
      | some o =>
          match Operation.eval TL o IDX state1 with
          | .error e => .error e
          | .ok (state2, IDX2) => evalSubops TL rest tempname IDX2 state2

end

/-! ## Rules and rule groups -/

/-- A rule node: `if` conditions, `ops`, and the `then`/`else` child rule
lists (`matched`/`nomatched`).  Built once from the declarative document
(`Rule.from_dict`) and never mutated, hence a finite tree. -/
inductive Rule where
  | mk (conds : ConditionGroup) (ops : List Operation) (matched nomatched : List Rule)

def Rule.conds : Rule → ConditionGroup
  | .mk c _ _ _ => c

def Rule.ops : Rule → List Operation
  | .mk _ o _ _ => o

def Rule.matched : Rule → List Rule
  | .mk _ _ m _ => m

def Rule.nomatched : Rule → List Rule
  | .mk _ _ _ n => n

/-- The `for o in self.ops: o.eval(state)` loop of `Rule.eval`. -/
def evalOps (TL : TensorLib) : List Operation → Nat → Dict → Except Err (Dict × Nat)
  | [], IDX, state => .ok (state, IDX)
  | o :: rest, IDX, state =>
      match Operation.eval TL o IDX state with
      | .error e => .error e
      | .ok (s2, c2) => evalOps TL rest c2 s2

mutual

/-- `Rule.eval` from the source: test the condition group; on match set
`state["target"] = "h"`, run the operations in order, then the `matched`
children in order; on mismatch run the `nomatched` children in order. -/
def Rule.eval (TL : TensorLib) (r : Rule) (IDX : Nat) (state : Dict) :
    Except Err (Dict × Nat) :=
  match r with
  | .mk conds ops matched nomatched =>
      match ConditionGroup.test conds state with
      | .error e => .error e
      | .ok false => evalRules TL nomatched IDX state
      | .ok true =>
          let state1 := state.set (.s "target") (.vstr "h")
          match evalOps TL ops IDX state1 with
          | .error e => .error e
          | .ok (s2, c2) => evalRules TL matched c2 s2

/-- `for r in rules: r.eval(state)` over a child rule list. -/
def evalRules (TL : TensorLib) (rs : List Rule) (IDX : Nat) (state : Dict) :
    Except Err (Dict × Nat) :=
  match rs with
  | [] => .ok (state, IDX)
  | r :: rest =>
      match Rule.eval TL r IDX state with
      | .error e => .error e
      | .ok (s2, c2) => evalRules TL rest c2 s2

end

/-- A `RuleGroup` is the tuple of top-level rules. -/
abbrev RuleGroup := List Rule

/-- `RuleGroup.eval`: evaluate every top-level rule unconditionally in
declared order against the shared state (the source returns the state;
the threaded `Operation.IDX` counter is returned alongside). -/
def RuleGroup.eval (TL : TensorLib) (rules : RuleGroup) (IDX : Nat) (state : Dict) :
    Except Err (Dict × Nat) :=
  evalRules TL rules IDX state

mutual

/-- `r` together with all rules reachable through `nomatched` children
fails to match on `state` (all condition groups test `.ok false`). -/
def Rule.noMatch (r : Rule) (state : Dict) : Bool :=
  match r with
  | .mk conds _ _ nomatched =>
      match ConditionGroup.test conds state with
      | .ok false => noMatchList nomatched state
      | _ => false

def noMatchList (rs : List Rule) (state : Dict) : Bool :=
  match rs with
  | [] => true
  | r :: rest => Rule.noMatch r state && noMatchList rest state

end

/-! ## Sigma → percent / step lookup (`BlehBlockOps.patch`) -/

/-- The classic `bisect.bisect_right` `lo`/`hi` loop, with an explicit
fuel argument making the recursion structural; any fuel of at least
`hi - lo` yields the loop's result (the interval shrinks every step). -/
def bisectRightFuel (a : List ℚ) (x : ℚ) : Nat → Nat → Nat → Nat
  | 0, lo, _ => lo
  | fuel + 1, lo, hi =>
      if lo < hi then
        let mid := (lo + hi) / 2
        if x < a.getD mid 0 then bisectRightFuel a x fuel lo mid
        else bisectRightFuel a x fuel (mid + 1) hi
      else lo

/-- `bisect.bisect_right(a, x)` over the whole list. -/
def bisect_right (a : List ℚ) (x : ℚ) : Nat :=
  bisectRightFuel a x (a.length + 1) 0 a.length

/-- `pct_steps = 400`: "arbitrary number that should have good enough
precision". -/
def pct_steps : Nat := 400

/-- `pct_incr = 1.0 / pct_steps`. -/
def pct_incr : ℚ := 1 / pct_steps

/-- The `sig2pct` table: `percent_to_sigma(x / pct_steps)` for
`x in range(pct_steps, -1, -1)`, i.e. `x = 400, …, 0`. -/
def sig2pct (p2s : ℚ → ℚ) : List ℚ :=
  ((List.range (pct_steps + 1)).reverse).map
    (fun x : Nat => p2s ((x : ℚ) / (pct_steps : ℚ)))

/-- `get_pct(topts)`: binary-search the table for the first sigma of
`topts["sigmas"]`; an index past the table means the sigma is out of
range and no percent is returned. -/
def get_pct (tbl : List ℚ) (sigmas : List ℚ) : Except Err (Option ℚ) :=
  match sigmas with
  | [] => .error .indexError  -- topts["sigmas"][0]
  | sigma :: _ =>
      let idx := bisect_right tbl sigma
      if tbl.length ≤ idx then .ok none
      else .ok (some (pct_incr * ((pct_steps : ℚ) - (idx : ℚ))))

/-- `xs.max()` on a tensor of sigmas (empty input raises). -/
def pyMax : List ℚ → Except Err ℚ
  | [] => .error .runtimeError
  | x :: xs => .ok (xs.foldl max x)

/-- `torch.min(v, 0)`: the minimum together with the index of its first
occurrence (`none` on an empty tensor, which raises). -/
def minWithIdx : List ℚ → Option (ℚ × Nat)
  | [] => none
  | v :: rest =>
      match minWithIdx rest with
      | none => some (v, 0)
      | some (m, i) => if v ≤ m then some (v, 0) else some (m, i + 1)

/-- The step-match tolerance `1.5e-06`. -/
def stepTolerance : ℚ := 15 / 10000000

/-- `set_state_step(state, sigma)` from the source.

When `sigmas_opt is None` the source executes
`state[Condtype.STEP_EXACT] = state[CondType.STEP] = -1` and `return st`:
both `Condtype` and `st` are undefined names, so the branch raises
`NameError` before assigning anything.  Otherwise the nearest entry of
`sigmas_opt[:-1]` is found with `torch.min(torch.abs(...), 0)` and the
step / step-exact / sigma / sigma-next keys are updated. -/
def set_state_step (sigmas_opt : Option (List ℚ)) (state : Dict) (sigma : ℚ) :
    Except Err Dict :=
  match sigmas_opt with
  | none => .error .nameError
  | some sigs =>
      match minWithIdx (sigs.dropLast.map (fun v => |v - sigma|)) with
      | none => .error .runtimeError
      | some (sigmadiff, idx) =>
          let s1 := state.set (.ct .STEP) (.num ((idx : ℚ) + 1))
          let s2 := s1.set (.ct .STEP_EXACT)
            (.num (if stepTolerance < sigmadiff then -1 else (idx : ℚ) + 1))
          let s3 := s2.set (.s "sigma") (.num (sigs.getD idx 0))
          let s4 := s3.set (.s "sigma_next") (.num (sigs.getD (idx + 1) 0))
          .ok s4

/-- `stages = (1280, 640, 320)`. -/
def stages : List Int := [1280, 640, 320]

/-- The `transformer_options` data used by the patches. -/
structure TOpts where
  sigmas : List ℚ
  block : Int × Int

/-- `make_state(typ, topts, h, hsp)` from the source. -/
def make_state (tbl : List ℚ) (sigmas_opt : Option (List ℚ)) (typ : String)
    (topts : TOpts) (h : Tensor) (hsp : Value) : Except Err (Option Dict) := do
  let pct? ← get_pct tbl topts.sigmas
  match pct? with
  | none => .ok none
  | some pct => do
      let ch ← shapeGet h 1  -- h.shape[1]
      let stage : Int := if ch ∈ stages then (stages.indexOf ch : Int) + 1 else -1
      let result : Dict := [
        (.ct .TYPE, .vstr typ),
        (.ct .PERCENT, .num pct),
        (.ct .BLOCK, .num ((topts.block.2 : ℚ))),
        (.ct .STAGE, .num ((stage : ℚ))),
        (.s "h", .tensor h),
        (.s "hsp", hsp),
        (.s "target", .vstr "h")]
      let mx ← pyMax topts.sigmas
      let st ← set_state_step sigmas_opt result mx
      .ok (some st)

/-- Result of the output-block patch: the source returns either a single
tensor (`return h`) or the `(state["h"], state["hsp"])` pair. -/
inductive PatchResult where
  | single (v : Value)
  | pair (a b : Value)
deriving DecidableEq

/-- `block_patch(typ, h, topts)`: used for the `input`,
`input_after_skip` and `middle` invocation sites. -/
def block_patch (TL : TensorLib) (rules : RuleGroup) (tbl : List ℚ)
    (sigmas_opt : Option (List ℚ)) (typ : String) (IDX : Nat) (h : Tensor)
    (topts : TOpts) : Except Err Value := do
  let st? ← make_state tbl sigmas_opt typ topts h .pynone
  match st? with
  | none => .ok (.tensor h)
  | some st => do
      match RuleGroup.eval TL rules IDX st with
      | .error e => .error e
      | .ok (st2, _) => getKey st2 (.s "h")

/-- `output_block_patch(h, hsp, transformer_options)` from the source.
Note: on the skip path (`state is None`) the source returns only `h`,
not the `(h, hsp)` pair. -/
def output_block_patch (TL : TensorLib) (rules : RuleGroup) (tbl : List ℚ)
    (sigmas_opt : Option (List ℚ)) (IDX : Nat) (h hsp : Tensor)
    (topts : TOpts) : Except Err PatchResult := do
  let st? ← make_state tbl sigmas_opt "output" topts h (.tensor hsp)
  match st? with
  | none => .ok (.single (.tensor h))
  | some st => do
      match RuleGroup.eval TL rules IDX st with
      | .error e => .error e
      | .ok (st2, _) => do
          let vh ← getKey st2 (.s "h")
          let vhsp ← getKey st2 (.s "hsp")
          .ok (.pair vh vhsp)

/-- `post_cfg_patch(args)` from the source.  Note: on the skip path
(`pct is None`) the source returns `None`, not `args["denoised"]`. -/
def post_cfg_patch (TL : TensorLib) (rules : RuleGroup) (tbl : List ℚ)
    (sigmas_opt : Option (List ℚ)) (IDX : Nat) (denoised : Tensor)
    (sigma : List ℚ) : Except Err (Option Value) := do
  let pct? ← get_pct tbl sigma
  match pct? with
  | none => .ok none
  | some pct => do
      let state : Dict := [
        (.ct .TYPE, .vstr "post_cfg"),
        (.ct .PERCENT, .num pct),
        (.ct .BLOCK, .num (-1)),
        (.ct .STAGE, .num (-1)),
        (.s "h", .tensor denoised),
        (.s "hsp", .pynone),
        (.s "target", .vstr "h")]
      let mx ← pyMax sigma
      let st ← set_state_step sigmas_opt state mx
      match RuleGroup.eval TL rules IDX st with
      | .error e => .error e
      | .ok (st2, _) => do
          let vh ← getKey st2 (.s "h")
          .ok (some vh)

/-! ## Auxiliary definitions used by the statements -/

/-- The six relational members of `CompareType` (those with an
`operator.*` function). -/
def CompareType.isRelational : CompareType → Bool
  | .EQ | .NE | .GT | .LT | .GE | .LE => true
  | _ => false

/-- The relational operators on rationals (Python numbers). -/
def relQ : CompareType → ℚ → ℚ → Bool
  | .EQ, a, b => a = b
  | .NE, a, b => !decide (a = b)
  | .GT, a, b => b < a
  | .LT, a, b => a < b
  | .GE, a, b => b ≤ a
  | .LE, a, b => a ≤ b
  | _, _, _ => false

/-- Whether an operation is the `TARGET_SKIP` redirect. -/
def Operation.isTargetSkip : Operation → Bool
  | .TARGET_SKIP _ => true
  | _ => false

/-! Node counting, fuel-bounded evaluation and visit traces for the
rule-tree walk (used to state termination / single-visit properties). -/

mutual

/-- Number of `Rule` nodes in a rule tree. -/
def Rule.size : Rule → Nat
  | .mk _ _ m nm => 1 + sizeRules m + sizeRules nm

/-- Number of `Rule` nodes in a rule list. -/
def sizeRules : List Rule → Nat
  | [] => 0
  | r :: rest => Rule.size r + sizeRules rest

end

mutual

/-- `Rule.eval` with an explicit fuel budget: one unit of fuel is spent
per visited `Rule` node; `none` means the budget ran out. -/
def Rule.evalFuel (TL : TensorLib) (fuel : Nat) (r : Rule) (IDX : Nat)
    (state : Dict) : Option (Except Err (Dict × Nat)) :=
  match fuel with
  | 0 => none
  | fuel + 1 =>
      match r with
      | .mk conds ops matched nomatched =>
          match ConditionGroup.test conds state with
          | .error e => some (.error e)
          | .ok false => evalRulesFuel TL fuel nomatched IDX state
          | .ok true =>
              let state1 := state.set (.s "target") (.vstr "h")
              match evalOps TL ops IDX state1 with
              | .error e => some (.error e)
              | .ok (s2, c2) => evalRulesFuel TL fuel matched c2 s2
termination_by (fuel, 0)

/-- Fuel-bounded evaluation of a rule list. -/
def evalRulesFuel (TL : TensorLib) (fuel : Nat) (rs : List Rule) (IDX : Nat)
    (state : Dict) : Option (Except Err (Dict × Nat)) :=
  match rs with
  | [] => some (.ok (state, IDX))
  | r :: rest =>
      match Rule.evalFuel TL fuel r IDX state with
      | none => none
      | some (.error e) => some (.error e)
      | some (.ok (s2, c2)) => evalRulesFuel TL fuel rest c2 s2
termination_by (fuel, rs.length + 1)

end

/-- Position of a rule node in the tree: the list of
(branch, child-index) choices from a top-level rule (`true` = the
`matched` list, also used for the top-level list itself; `false` = the
`nomatched` list). -/
abbrev RPath := List (Bool × Nat)

/-- `p` is a prefix of `q`. -/
def pathLe (p q : RPath) : Prop := ∃ t, q = p ++ t

mutual

/-- `Rule.eval` instrumented to also return the paths of the rule nodes
it visits, in visit order (the node itself first, then the children of
the branch chosen by its condition group). -/
def Rule.evalTrace (TL : TensorLib) (p : RPath) (r : Rule) (IDX : Nat)
    (state : Dict) : (Except Err (Dict × Nat)) × List RPath :=
  match r with
  | .mk conds ops matched nomatched =>
      match ConditionGroup.test conds state with
      | .error e => (.error e, [p])
      | .ok false =>
          let rt := evalRulesTrace TL p false 0 nomatched IDX state
          (rt.1, p :: rt.2)
      | .ok true =>
          let state1 := state.set (.s "target") (.vstr "h")
          match evalOps TL ops IDX state1 with
          | .error e => (.error e, [p])
          | .ok (s2, c2) =>
              let rt := evalRulesTrace TL p true 0 matched c2 s2
              (rt.1, p :: rt.2)

/-- Trace-instrumented evaluation of the rule list at branch `b` of the
node at `p`, starting at child index `i`. -/
def evalRulesTrace (TL : TensorLib) (p : RPath) (b : Bool) (i : Nat)
    (rs : List Rule) (IDX : Nat) (state : Dict) :
    (Except Err (Dict × Nat)) × List RPath :=
  match rs with
  | [] => (.ok (state, IDX), [])
  | r :: rest =>
      match Rule.evalTrace TL (p ++ [(b, i)]) r IDX state with
      | (.error e, tr) => (.error e, tr)
      | (.ok (s2, c2), tr) =>
          let rt := evalRulesTrace TL p b (i + 1) rest c2 s2
          (rt.1, tr ++ rt.2)

end

/-- Trace-instrumented `RuleGroup.eval`: the `i`-th top-level rule sits
at path `[(true, i)]`. -/
def RuleGroup.evalTrace (TL : TensorLib) (rules : RuleGroup) (IDX : Nat)
    (state : Dict) : (Except Err (Dict × Nat)) × List RPath :=
  evalRulesTrace TL [] true 0 rules IDX state

/-- Fuel-bounded `RuleGroup.eval`. -/
def RuleGroup.evalFuel (TL : TensorLib) (fuel : Nat) (rules : RuleGroup)
    (IDX : Nat) (state : Dict) : Option (Except Err (Dict × Nat)) :=
  evalRulesFuel TL fuel rules IDX state

/-! Concrete instances used by closed statements (counterexamples and
witnesses). -/

/-- A concrete tensor. -/
def tensorA : Tensor := ⟨[1, 4, 8, 8], 0⟩

/-- A second concrete tensor. -/
def tensorB : Tensor := ⟨[1, 4, 16, 16], 1⟩

/-- A concrete instantiation of the external tensor library for closed
evaluations (every theorem that depends on library behaviour is stated
for an arbitrary `TensorLib`). -/
def TL0 : TensorLib where
  scale_samples := fun t _ _ _ _ _ => t
  flip := fun t _ => t
  rot90 := fun t _ => t
  roll := fun t _ _ => t
  blend := fun _ a _ _ => a
  ffilter := fun t _ _ _ _ => t
  filter_presets := fun _ => none
  sliceChannels := fun t _ => t
  setSliceChannels := fun t _ _ => t
  hidden_mean := fun t => t
  mulScalar := fun t _ => t
  addScalar := fun t _ => t
  mulT := fun a _ => a
  addT := fun a _ => a
  oneMinus := fun t => t
  antialias_tensor := fun t _ => t
  randn_like := fun t => t
  tensorOfRows := fun _ => ⟨[], 99⟩
  view11 := fun t => t
  broadcast_to := fun t _ => t

/-- A concrete strictly decreasing `percent_to_sigma` host function. -/
def p2sLin : ℚ → ℚ := fun q => 1 - q



/-- The frame property of one `Operation.eval` call (claim C6): assuming a
well-formed state (no duplicate keys, a `"target"` value resolving to a
present slot other than the `"target"` key itself, and all scratch slots
from the current counter upward absent), a successful evaluation
* preserves the set of keys present in the state,
* changes no binding other than the target slot and the `"target"` key,
* never decreases the counter and leaves every scratch slot `temp{j}`
  with `j ≥ IDX` absent (scratch slots are created fresh and removed
  before returning), and
* leaves the `"target"` value itself unchanged unless the operation is
  `TARGET_SKIP`. -/
def FrameHolds (TL : TensorLib) (op : Operation) : Prop :=
  ∀ (IDX : Nat) (state : Dict) (res : Dict × Nat) (tv : Value) (tk : SKey),
    state.NoDupKeys →
    state.get (.s "target") = some tv →
    targetKeyOf tv = .ok tk →
    (state.get tk).isSome →
    tk ≠ .s "target" →
    (∀ j, IDX ≤ j → state.get (.temp j) = none) →
    Operation.eval TL op IDX state = .ok res →
    res.1.NoDupKeys ∧ IDX ≤ res.2 ∧
      (∀ k, (res.1.get k).isSome ↔ (state.get k).isSome) ∧
      (∀ k, k ≠ tk → k ≠ .s "target" → res.1.get k = state.get k) ∧
      (∀ j, IDX ≤ j → res.1.get (.temp j) = none) ∧
      (op.isTargetSkip = false → res.1.get (.s "target") = state.get (.s "target"))

/-! # Theorems

First helper lemmas (state dict, numeric search), then one theorem per
specification claim, with witnesses and counterexamples where applicable. -/

namespace Dict

@[simp] theorem get_nil (k : SKey) : get [] k = none := rfl

@[simp] theorem get_set_self (d : Dict) (k : SKey) (v : Value) :
    (d.set k v).get k = some v := by
  induction d with
  | nil => simp [set, get]
  | cons hd tl ih =>
      obtain ⟨k', v'⟩ := hd
      by_cases h : k' = k <;> simp [set, get, h, ih]

theorem get_set_ne (d : Dict) {k k' : SKey} (v : Value) (h : k' ≠ k) :
    (d.set k v).get k' = d.get k' := by
  have h' : k ≠ k' := Ne.symm h
  induction d with
  | nil => simp [set, get, h']
  | cons hd tl ih =>
      obtain ⟨k0, v0⟩ := hd
      by_cases h0 : k0 = k
      · subst h0
        simp [set, get, h']
      · by_cases h1 : k0 = k' <;> simp [set, get, h0, h1, h, ih]

theorem get_del_ne (d : Dict) {k k' : SKey} (h : k' ≠ k) :
    (d.del k).get k' = d.get k' := by
  have h' : k ≠ k' := Ne.symm h
  induction d with
  | nil => simp [del]
  | cons hd tl ih =>
      obtain ⟨k0, v0⟩ := hd
      by_cases h0 : k0 = k
      · subst h0
        simp [del, get, h']
      · by_cases h1 : k0 = k' <;> simp [del, get, h0, h1, h, ih]

theorem del_of_get_none (d : Dict) {k : SKey} (h : d.get k = none) :
    d.del k = d := by
  induction d with
  | nil => simp [del]
  | cons hd tl ih =>
      obtain ⟨k0, v0⟩ := hd
      by_cases h0 : k0 = k
      · subst h0; simp [get] at h
      · simp [get, h0] at h
        simp [del, h0, ih h]

theorem get_mem_keys {d : Dict} {k : SKey} (h : (d.get k).isSome) :
    k ∈ d.keys := by
  induction d with
  | nil => simp [get] at h
  | cons hd tl ih =>
      obtain ⟨k0, v0⟩ := hd
      simp only [keys, List.map_cons, List.mem_cons]
      by_cases h0 : k0 = k
      · exact Or.inl h0.symm
      · simp only [get, h0, if_false] at h
        exact Or.inr (ih h)

theorem get_none_of_not_mem_keys {d : Dict} {k : SKey} (h : k ∉ d.keys) :
    d.get k = none := by
  induction d with
  | nil => rfl
  | cons hd tl ih =>
      obtain ⟨k0, v0⟩ := hd
      simp only [keys, List.map_cons, List.mem_cons, not_or] at h
      have h0 : k0 ≠ k := fun he => h.1 he.symm
      simp [get, h0, ih h.2]

theorem get_del_self {d : Dict} (hnd : d.NoDupKeys) (k : SKey) :
    (d.del k).get k = none := by
  induction d with
  | nil => simp [del]
  | cons hd tl ih =>
      obtain ⟨k0, v0⟩ := hd
      simp only [NoDupKeys, keys, List.map_cons, List.nodup_cons] at hnd
      by_cases h0 : k0 = k
      · subst h0
        simpa [del] using get_none_of_not_mem_keys hnd.1
      · simp [del, get, h0, ih hnd.2]

theorem keys_set_of_mem {d : Dict} {k : SKey} (v : Value)
    (h : k ∈ d.keys) : (d.set k v).keys = d.keys := by
  induction d with
  | nil => simp [keys] at h
  | cons hd tl ih =>
      obtain ⟨k0, v0⟩ := hd
      by_cases h0 : k0 = k
      · subst h0; simp [set, keys]
      · simp only [keys, List.map_cons, List.mem_cons] at h
        rcases h with h | h
        · exact absurd h.symm h0
        · simp only [set, h0, if_false, keys, List.map_cons]
          rw [show (set tl k v).map Prod.fst = keys (set tl k v) from rfl, ih h]
          rfl

theorem keys_set_of_not_mem {d : Dict} {k : SKey} (v : Value)
    (h : k ∉ d.keys) : (d.set k v).keys = d.keys ++ [k] := by
  induction d with
  | nil => simp [set, keys]
  | cons hd tl ih =>
      obtain ⟨k0, v0⟩ := hd
      simp only [keys, List.map_cons, List.mem_cons, not_or] at h
      have h0 : k0 ≠ k := fun he => h.1 he.symm
      simp only [set, h0, if_false, keys, List.map_cons, List.cons_append]
      rw [show (set tl k v).map Prod.fst = keys (set tl k v) from rfl, ih h.2]
      rfl

theorem nodupKeys_set {d : Dict} (hnd : d.NoDupKeys) (k : SKey) (v : Value) :
    (d.set k v).NoDupKeys := by
  by_cases h : k ∈ d.keys
  · unfold NoDupKeys
    rw [keys_set_of_mem v h]
    exact hnd
  · unfold NoDupKeys
    rw [keys_set_of_not_mem v h]
    refine List.Nodup.append hnd (List.nodup_singleton k) ?_
    intro x hx hk
    simp only [List.mem_singleton] at hk
    exact h (hk ▸ hx)

theorem keys_del_sublist (d : Dict) (k : SKey) :
    (d.del k).keys.Sublist d.keys := by
  induction d with
  | nil => simp [del]
  | cons hd tl ih =>
      obtain ⟨k0, v0⟩ := hd
      by_cases h0 : k0 = k
      · subst h0
        simp only [del, if_pos rfl, keys, List.map_cons]
        exact List.sublist_cons_self _ _
      · simpa [del, keys, h0] using ih

theorem nodupKeys_del {d : Dict} (hnd : d.NoDupKeys) (k : SKey) :
    (d.del k).NoDupKeys := (keys_del_sublist d k).nodup hnd

theorem isSome_get_set (d : Dict) (k k' : SKey) (v : Value) :
    ((d.set k v).get k').isSome ↔ (k' = k ∨ (d.get k').isSome) := by
  by_cases h : k' = k
  · subst h; simp
  · simp [get_set_ne d v h, h]


end Dict

/-! ## Lemmas about `minWithIdx` (`torch.min(v, 0)`) -/

theorem minWithIdx_eq_none_iff (l : List ℚ) : minWithIdx l = none ↔ l = [] := by
  cases l with
  | nil => simp [minWithIdx]
  | cons v rest =>
      simp only [minWithIdx]
      cases h : minWithIdx rest with
      | none => simp
      | some p =>
          obtain ⟨m, i⟩ := p
          by_cases hv : v ≤ m <;> simp [hv]

theorem minWithIdx_spec {l : List ℚ} {m : ℚ} {i : Nat}
    (h : minWithIdx l = some (m, i)) :
    i < l.length ∧ l.getD i 0 = m ∧ (∀ j, j < l.length → m ≤ l.getD j 0) ∧
      (∀ j, j < i → m < l.getD j 0) := by
  induction l generalizing m i with
  | nil => simp [minWithIdx] at h
  | cons v rest ih =>
      simp only [minWithIdx] at h
      cases hr : minWithIdx rest with
      | none =>
          rw [hr] at h
          simp only [Option.some.injEq, Prod.mk.injEq] at h
          obtain ⟨hm, hi⟩ := h
          subst hm
          cases hi
          have hrest : rest = [] := (minWithIdx_eq_none_iff rest).mp hr
          subst hrest
          refine ⟨by simp, by simp, ?_, by omega⟩
          intro j hj
          have hj0 : j = 0 := by
            simp only [List.length_cons, List.length_nil] at hj
            omega
          subst hj0
          simp
      | some p =>
          obtain ⟨m0, i0⟩ := p
          rw [hr] at h
          have spec := ih hr
          by_cases hv : v ≤ m0
          · simp only [hv, if_true, Option.some.injEq, Prod.mk.injEq] at h
            obtain ⟨hm, hi⟩ := h
            subst hm
            cases hi
            refine ⟨by simp, by simp, ?_, by omega⟩
            intro j hj
            cases j with
            | zero => simp
            | succ j =>
                simp only [List.getD_cons_succ]
                exact le_trans hv (spec.2.2.1 j (by simpa using hj))
          · simp only [hv, if_false, Option.some.injEq, Prod.mk.injEq] at h
            obtain ⟨hm, hi⟩ := h
            subst hm
            cases hi
            have hlt : m0 < v := not_le.mp hv
            refine ⟨by simpa using spec.1, by simpa using spec.2.1, ?_, ?_⟩
            · intro j hj
              cases j with
              | zero => simpa using le_of_lt hlt
              | succ j =>
                  simp only [List.getD_cons_succ]
                  exact spec.2.2.1 j (by simpa using hj)
            · intro j hj
              cases j with
              | zero => simpa using hlt
              | succ j =>
                  simp only [List.getD_cons_succ]
                  exact spec.2.2.2 j (by omega)

/-- The state reads after a successful `set_state_step` with an explicit
schedule: `STEP` is the 1-based first argmin index over
`sigmas_opt[:-1]`, `STEP_EXACT` additionally subject to the tolerance. -/
theorem set_state_step_some_get {sigs : List ℚ} {sigma : ℚ} (state : Dict)
    {m : ℚ} {i : Nat}
    (hmw : minWithIdx (sigs.dropLast.map (fun v => |v - sigma|)) = some (m, i)) :
    ∃ st : Dict, set_state_step (some sigs) state sigma = .ok st ∧
      st.get (.ct .STEP) = some (.num ((i : ℚ) + 1)) ∧
      st.get (.ct .STEP_EXACT) =
        some (.num (if stepTolerance < m then -1 else (i : ℚ) + 1)) := by
  simp only [set_state_step, hmw]
  refine ⟨_, rfl, ?_, ?_⟩
  · rw [Dict.get_set_ne _ _ (by simp), Dict.get_set_ne _ _ (by simp),
      Dict.get_set_ne _ _ (by simp), Dict.get_set_self]
  · rw [Dict.get_set_ne _ _ (by simp), Dict.get_set_ne _ _ (by simp),
      Dict.get_set_self]

/-! ## C2: no explicit sigma schedule -/

/-- **C2.** The claim says that with `sigmas_opt is None` state
construction completes, setting `step = step_exact = -1`.  In the source
the `None` branch of `set_state_step` executes
`state[Condtype.STEP_EXACT] = state[CondType.STEP] = -1` and `return st`,
and both `Condtype` and `st` are undefined names: the branch raises
`NameError` for every state and sigma before assigning anything, so the
claimed outcome never comes about (first conjunct).  The remaining
conjuncts record the part of the claim that is accurate about the
*intended* state: against a state whose step is `-1`, FROM_STEP, TO_STEP
and STEP_INTERVAL conditions all test false. -/
theorem C2_no_schedule_raises :
    (∀ (state : Dict) (sigma : ℚ),
        set_state_step none state sigma = .error .nameError) ∧
    Condition.test (.prim .FROM_STEP [.num 1, .num 5])
        [(.ct .STEP, .num (-1))] = .ok false ∧
    Condition.test (.prim .TO_STEP [.num 9])
        [(.ct .STEP, .num (-1))] = .ok false ∧
    Condition.test (.prim .STEP_INTERVAL [.num 2])
        [(.ct .STEP, .num (-1))] = .ok false :=
  ⟨fun _ _ => rfl, rfl, rfl, rfl⟩

/-! ## C3: step assignment from an explicit schedule -/

/-- **C3 counterexample.**  With schedule `[2, 1]` and query sigma `1`,
the sigma equals schedule entry `k = 1` exactly, so the claim predicts
`step = step_exact = k + 1 = 2`.  The source searches only
`sigmas_opt[:-1]`, so it finds nearest searched entry `0` (distance
`1`), sets `step = 1` and — the tolerance being exceeded —
`step_exact = -1`. -/
theorem C3_counterexample :
    (([2, 1] : List ℚ).getD 1 0 = 1) ∧
    set_state_step (some [2, 1]) [] 1 =
      .ok [(.ct .STEP, .num 1), (.ct .STEP_EXACT, .num (-1)),
        (.s "sigma", .num 2), (.s "sigma_next", .num 1)] ∧
    (1 : ℚ) ≠ 2 ∧ (-1 : ℚ) ≠ 2 := by
  refine ⟨rfl, ?_, by norm_num, by norm_num⟩
  have habs : ([2, 1] : List ℚ).dropLast.map (fun v => |v - 1|) = [1] := by
    show [|(2 : ℚ) - 1|] = [1]
    norm_num
  have hmw : minWithIdx (([2, 1] : List ℚ).dropLast.map (fun v => |v - 1|)) =
      some (1, 0) := by
    rw [habs]
    rfl
  simp only [set_state_step, hmw]
  rw [if_pos (by norm_num [stepTolerance])]
  norm_num [Dict.set, List.getD_cons_zero, List.getD_cons_succ]
  decide

/-- **C3 (amended).**  Amended to range over the entries the source
actually searches (`sigmas_opt[:-1]`, i.e. all but the last schedule
entry): (a) if the query sigma equals searched entry `k` (the first such),
then `step = step_exact = k + 1`; (b) if every searched entry is farther
than the tolerance `1.5e-6`, then `step_exact = -1` while `step` is the
1-based index of a nearest searched entry. -/
theorem C3_step_assignment (sigs : List ℚ) (sigma : ℚ) (state : Dict) :
    (∀ k : Nat, k + 1 < sigs.length → sigs.getD k 0 = sigma →
      (∀ j, j < k → sigs.getD j 0 ≠ sigma) →
      ∃ st : Dict, set_state_step (some sigs) state sigma = .ok st ∧
        st.get (.ct .STEP) = some (.num ((k : ℚ) + 1)) ∧
        st.get (.ct .STEP_EXACT) = some (.num ((k : ℚ) + 1))) ∧
    (2 ≤ sigs.length →
      (∀ j : Nat, j + 1 < sigs.length → stepTolerance < |sigs.getD j 0 - sigma|) →
      ∃ (st : Dict) (j : Nat), set_state_step (some sigs) state sigma = .ok st ∧
        j + 1 < sigs.length ∧
        (∀ i, i + 1 < sigs.length →
          |sigs.getD j 0 - sigma| ≤ |sigs.getD i 0 - sigma|) ∧
        st.get (.ct .STEP) = some (.num ((j : ℚ) + 1)) ∧
        st.get (.ct .STEP_EXACT) = some (.num (-1))) := by
  have hdlen : (sigs.dropLast.map (fun v => |v - sigma|)).length = sigs.length - 1 := by
    simp
  have hdget : ∀ j, j + 1 < sigs.length →
      (sigs.dropLast.map (fun v => |v - sigma|)).getD j 0 = |sigs.getD j 0 - sigma| := by
    intro j hj
    have hj1 : j < (sigs.dropLast.map (fun v => |v - sigma|)).length := by omega
    have hj2 : j < sigs.dropLast.length := by simpa using hj1
    have hj3 : j < sigs.length := by omega
    rw [List.getD_eq_getElem _ _ hj1, List.getElem_map,
      List.getElem_dropLast, List.getD_eq_getElem _ _ hj3]
  constructor
  · intro k hk hkeq hkfirst
    cases hmw : minWithIdx (sigs.dropLast.map (fun v => |v - sigma|)) with
    | none =>
        exfalso
        have h0 := (minWithIdx_eq_none_iff _).mp hmw
        have : (sigs.dropLast.map (fun v => |v - sigma|)).length = 0 := by
          rw [h0]; rfl
        omega
    | some p =>
        obtain ⟨m, i⟩ := p
        have spec := minWithIdx_spec hmw
        have hklt : k < (sigs.dropLast.map (fun v => |v - sigma|)).length := by omega
        have hdk : (sigs.dropLast.map (fun v => |v - sigma|)).getD k 0 = 0 := by
          rw [hdget k hk, hkeq]; simp
        have hile : i + 1 < sigs.length := by omega
        have hm0 : m = 0 := by
          have h1 : m ≤ 0 := hdk ▸ spec.2.2.1 k hklt
          have h2 : 0 ≤ m := by
            rw [← spec.2.1, hdget i hile]
            exact abs_nonneg _
          linarith
        have hik : i = k := by
          rcases lt_trichotomy i k with h | h | h
          · exfalso
            have hv := spec.2.1
            rw [hdget i hile] at hv
            rw [hm0] at hv
            exact hkfirst i h (by linarith [abs_eq_zero.mp hv])
          · exact h
          · exfalso
            have hv := spec.2.2.2 k h
            rw [hdk, hm0] at hv
            exact lt_irrefl 0 hv
        obtain ⟨st, hst, hstep, hexact⟩ := set_state_step_some_get state hmw
        refine ⟨st, hst, ?_, ?_⟩
        · rw [hstep, hik]
        · rw [hexact, hik, hm0, if_neg (by norm_num [stepTolerance])]
  · intro hlen hfar
    cases hmw : minWithIdx (sigs.dropLast.map (fun v => |v - sigma|)) with
    | none =>
        exfalso
        have h0 := (minWithIdx_eq_none_iff _).mp hmw
        have : (sigs.dropLast.map (fun v => |v - sigma|)).length = 0 := by
          rw [h0]; rfl
        omega
    | some p =>
        obtain ⟨m, i⟩ := p
        have spec := minWithIdx_spec hmw
        have hile : i + 1 < sigs.length := by omega
        have hmval : m = |sigs.getD i 0 - sigma| := by
          rw [← spec.2.1, hdget i hile]
        obtain ⟨st, hst, hstep, hexact⟩ := set_state_step_some_get state hmw
        refine ⟨st, i, hst, hile, ?_, hstep, ?_⟩
        · intro j hj
          have hle := spec.2.2.1 j (by omega)
          rw [hdget j hj] at hle
          rw [← hmval]
          exact hle
        · rw [hexact, if_pos (hmval ▸ hfar i hile)]

/-- **C3 witness.**  Concrete instances of both parts: schedule
`[2, 1, 0]` with sigma `1` matches entry `1` exactly (`step =
step_exact = 2`); schedule `[2, 1]` with sigma `5` matches nothing
(`step = 1`, `step_exact = -1`). -/
theorem C3_step_assignment_witness :
    (∃ st : Dict, set_state_step (some [2, 1, 0]) [] 1 = .ok st ∧
      st.get (.ct .STEP) = some (.num 2) ∧
      st.get (.ct .STEP_EXACT) = some (.num 2)) ∧
    (∃ (st : Dict) (j : Nat), set_state_step (some [2, 1]) [] 5 = .ok st ∧
      j + 1 < ([2, 1] : List ℚ).length ∧
      (∀ i, i + 1 < ([2, 1] : List ℚ).length →
        |([2, 1] : List ℚ).getD j 0 - 5| ≤ |([2, 1] : List ℚ).getD i 0 - 5|) ∧
      st.get (.ct .STEP) = some (.num ((j : ℚ) + 1)) ∧
      st.get (.ct .STEP_EXACT) = some (.num (-1))) := by
  constructor
  · have h := (C3_step_assignment [2, 1, 0] 1 []).1 1 (by decide) (by decide)
      (by
        intro j hj
        have hj0 : j = 0 := by omega
        subst hj0
        decide)
    norm_num at h
    exact h
  · exact (C3_step_assignment [2, 1] 5 []).2 (by decide)
      (by
        intro j hj
        simp only [List.length_cons, List.length_nil] at hj
        have hj0 : j = 0 := by omega
        subst hj0
        show stepTolerance < |([2, 1] : List ℚ).getD 0 0 - 5|
        rw [show |([2, 1] : List ℚ).getD 0 0 - 5| = 3 by norm_num [List.getD_cons_zero]]
        norm_num [stepTolerance])

/-! ## C5: AND-across-values semantics of leaf comparisons -/

/-- `operator.*` on two Python numbers. -/
theorem pyCompare_num {op : CompareType} (hop : op.isRelational = true)
    (a b : ℚ) : pyCompare op (.num a) (.num b) = .ok (relQ op a b) := by
  cases op <;> simp_all [CompareType.isRelational, pyCompare, relQ, valueEq]

/-- The value loop of a leaf `Compare.test` over numeric values is the
conjunction of the operator over all values. -/
theorem allRel_num {op : CompareType} (hop : op.isRelational = true)
    (q : ℚ) (vals : List ℚ) :
    allRel op (.num q) (vals.map .num) = .ok (vals.all (fun v => relQ op q v)) := by
  induction vals with
  | nil => rfl
  | cons v rest ih =>
      simp only [List.map_cons, allRel, pyCompare_num hop]
      cases hrel : relQ op q v <;> simp [hrel, ih]

/-- **C5.**  For a leaf comparison over a numeric state field, `test`
returns true iff the relational operator holds between the field value
and *every* supplied value (AND across values); in particular `GT` with
values `[3, 5]` is true exactly when the field exceeds `5`. -/
theorem C5_leaf_compare_and_semantics (t : CondType) (q : ℚ) (state : Dict)
    (hget : state.get (.ct t) = some (.num q)) :
    (∀ op : CompareType, op.isRelational = true → ∀ vals : List ℚ,
      Condition.test (.cmpLeaf op t (vals.map .num)) state =
        .ok (vals.all (fun v => relQ op q v))) ∧
    (Condition.test (.cmpLeaf .GT t [.num 3, .num 5]) state = .ok true ↔ 5 < q) := by
  have hbase : ∀ op : CompareType, op.isRelational = true → ∀ vals : List ℚ,
      Condition.test (.cmpLeaf op t (vals.map .num)) state =
        .ok (vals.all (fun v => relQ op q v)) := by
    intro op hop vals
    simp only [Condition.test, hget]
    exact allRel_num hop q vals
  refine ⟨hbase, ?_⟩
  have h2 := hbase .GT rfl [3, 5]
  simp only [List.map_cons, List.map_nil] at h2
  rw [h2]
  simp only [List.all_cons, List.all_nil, Bool.and_true, relQ]
  constructor
  · intro h
    simp only [Except.ok.injEq, Bool.and_eq_true, decide_eq_true_eq] at h
    exact h.2
  · intro h
    have h3 : (3 : ℚ) < q := by linarith
    simp [h3, h]

/-- **C5 witness.**  A concrete instance: field value `7`, `GT [3, 5]`. -/
theorem C5_leaf_compare_witness :
    Condition.test (.cmpLeaf .GT .BLOCK [.num 3, .num 5])
      [(.ct .BLOCK, .num 7)] = .ok true :=
  (C5_leaf_compare_and_semantics .BLOCK 7 [(.ct .BLOCK, .num 7)] rfl).2.mpr
    (by norm_num)


/-! ## C7: TARGET_SKIP semantics -/

/-- **C7 (amended).**  `TARGET_SKIP` semantics.  When the companion slot
`hsp` is absent or `None`: if the current target is `"hsp"` it is reset
to `"h"`, otherwise the target is left unchanged (in particular it is
never redirected to `"hsp"`); the original claim's "resulting target is
`h` regardless" only holds when the current target is `"h"` or `"hsp"`,
not for a scratch target.  When `hsp` is present and not `None`, the
target becomes `"hsp"` iff the argument is true, else `"h"`.  Nothing
but the `"target"` key changes. -/
theorem C7_target_skip_semantics (TL : TensorLib) (flag : Bool) (IDX : Nat)
    (state : Dict) (tv : Value) (tk : SKey)
    (htv : state.get (.s "target") = some tv)
    (htk : targetKeyOf tv = .ok tk)
    (hts : (state.get tk).isSome) :
    ((state.get (.s "hsp") = none ∨ state.get (.s "hsp") = some .pynone) →
      ∃ st' : Dict, Operation.eval TL (.TARGET_SKIP flag) IDX state = .ok (st', IDX) ∧
        st'.get (.s "target") =
          (if tv = .vstr "hsp" then some (.vstr "h") else some tv) ∧
        ∀ k, k ≠ .s "target" → st'.get k = state.get k) ∧
    (∀ v, state.get (.s "hsp") = some v → v ≠ .pynone →
      ∃ st' : Dict, Operation.eval TL (.TARGET_SKIP flag) IDX state = .ok (st', IDX) ∧
        st'.get (.s "target") = some (.vstr (if flag then "hsp" else "h")) ∧
        ∀ k, k ≠ .s "target" → st'.get k = state.get k) := by
  obtain ⟨t0, ht0⟩ := Option.isSome_iff_exists.mp hts
  constructor
  · intro habs
    by_cases he : tv = .vstr "hsp"
    · refine ⟨state.set (.s "target") (.vstr "h"), ?_, ?_, ?_⟩
      · rcases habs with h | h <;>
          · simp only [Operation.eval, getKey, htv, htk, ht0, h,
              Except.instMonad, Except.bind]
            rw [if_pos he]
      · rw [if_pos he, Dict.get_set_self]
      · intro k hk
        exact Dict.get_set_ne _ _ hk
    · refine ⟨state, ?_, ?_, fun _ _ => rfl⟩
      · rcases habs with h | h <;>
          · simp only [Operation.eval, getKey, htv, htk, ht0, h,
              Except.instMonad, Except.bind]
            rw [if_neg he]
      · rw [if_neg he]
        exact htv
  · intro v hv hvne
    refine ⟨state.set (.s "target") (.vstr (if flag then "hsp" else "h")), ?_,
      Dict.get_set_self _ _ _, fun k hk => Dict.get_set_ne _ _ hk⟩
    cases v
    case pynone => exact absurd rfl hvne
    all_goals
      simp only [Operation.eval, getKey, htv, htk, ht0, hv,
        Except.instMonad, Except.bind]

/-- **C7 counterexample.**  Inside a blend, the target is a scratch slot
(`temp0` here).  With `hsp` bound to `None` and argument `true`, the
claim says the resulting target is forced to `"h"`; the source leaves
the scratch target untouched. -/
theorem C7_counterexample :
    Operation.eval TL0 (.TARGET_SKIP true) 1
        [(.s "target", .tkey 0), (.temp 0, .tensor tensorA), (.s "hsp", .pynone)] =
      .ok ([(.s "target", .tkey 0), (.temp 0, .tensor tensorA), (.s "hsp", .pynone)], 1) ∧
    Dict.get [(.s "target", .tkey 0), (.temp 0, .tensor tensorA), (.s "hsp", .pynone)]
        (.s "target") ≠ some (.vstr "h") :=
  ⟨rfl, by decide⟩

/-- **C7 witness.**  Concrete instances of both behaviours: with
`hsp = None` and target `"h"`, the target stays `"h"` despite the `true`
argument; with `hsp` present, the target becomes `"hsp"`. -/
theorem C7_target_skip_witness :
    (∃ st' : Dict, Operation.eval TL0 (.TARGET_SKIP true) 0
        [(.s "target", .vstr "h"), (.s "h", .tensor tensorA), (.s "hsp", .pynone)] =
        .ok (st', 0) ∧ st'.get (.s "target") = some (.vstr "h")) ∧
    (∃ st' : Dict, Operation.eval TL0 (.TARGET_SKIP true) 0
        [(.s "target", .vstr "h"), (.s "h", .tensor tensorA), (.s "hsp", .tensor tensorB)] =
        .ok (st', 0) ∧ st'.get (.s "target") = some (.vstr "hsp")) := by
  constructor
  · obtain ⟨st', he, ht, _⟩ :=
      (C7_target_skip_semantics TL0 true 0
        [(.s "target", .vstr "h"), (.s "h", .tensor tensorA), (.s "hsp", .pynone)]
        (.vstr "h") (.s "h") rfl rfl (by decide)).1 (Or.inr rfl)
    refine ⟨st', he, ?_⟩
    rw [ht, if_neg (by decide)]
  · obtain ⟨st', he, ht, _⟩ :=
      (C7_target_skip_semantics TL0 true 0
        [(.s "target", .vstr "h"), (.s "h", .tensor tensorA), (.s "hsp", .tensor tensorB)]
        (.vstr "h") (.s "h") rfl rfl (by decide)).2 (.tensor tensorB) rfl (by decide)
    exact ⟨st', he, ht⟩

/-! ## C8: unscale operations -/

/-- **C8.**  Both unscale variants: with the `hsp` key missing the
lookup raises (`KeyError`); with `hsp` bound to `None` they raise the
invalid-state `ValueError`; when `hsp` is a tensor whose last two
dimensions already equal the target's, the operation returns with the
state (and counter) completely unchanged; otherwise the target slot is
rewritten with `scale_samples` resized to `hsp`'s width and height. -/
theorem C8_unscale_requires_companion (TL : TensorLib) (mode modeW modeH : String)
    (aa : Bool) (aas : Int) (IDX : Nat) (state : Dict) (tv : Value) (tk : SKey)
    (t : Tensor) (htv : state.get (.s "target") = some tv)
    (htk : targetKeyOf tv = .ok tk)
    (htt : state.get tk = some (.tensor t)) :
    (state.get (.s "hsp") = none →
      Operation.eval TL (.UNSCALE_TORCH mode aa) IDX state = .error .keyError ∧
      Operation.eval TL (.UNSCALE modeW modeH aas) IDX state = .error .keyError) ∧
    (state.get (.s "hsp") = some .pynone →
      Operation.eval TL (.UNSCALE_TORCH mode aa) IDX state = .error .valueError ∧
      Operation.eval TL (.UNSCALE modeW modeH aas) IDX state = .error .valueError) ∧
    (∀ (ht : Tensor) (tw th : Int), state.get (.s "hsp") = some (.tensor ht) →
      shapeGet t (-1) = .ok tw → shapeGet t (-2) = .ok th →
      shapeGet ht (-1) = .ok tw → shapeGet ht (-2) = .ok th →
      Operation.eval TL (.UNSCALE_TORCH mode aa) IDX state = .ok (state, IDX) ∧
      Operation.eval TL (.UNSCALE modeW modeH aas) IDX state = .ok (state, IDX)) ∧
    (∀ (ht : Tensor) (tw th hw hh : Int), state.get (.s "hsp") = some (.tensor ht) →
      shapeGet t (-1) = .ok tw → shapeGet t (-2) = .ok th →
      shapeGet ht (-1) = .ok hw → shapeGet ht (-2) = .ok hh →
      ¬(tw = hw ∧ th = hh) →
      Operation.eval TL (.UNSCALE_TORCH mode aa) IDX state =
        .ok (state.set tk
          (.tensor (TL.scale_samples t hw hh mode none (if aa then 8 else 0))), IDX) ∧
      Operation.eval TL (.UNSCALE modeW modeH aas) IDX state =
        .ok (state.set tk
          (.tensor (TL.scale_samples t hw hh modeW (some modeH) aas)), IDX)) := by
  refine ⟨?_, ?_, ?_, ?_⟩
  · intro h
    constructor <;>
      simp only [Operation.eval, getKey, htv, htk, htt, h,
        Except.instMonad, Except.bind]
  · intro h
    constructor <;>
      · simp only [Operation.eval, getKey, htv, htk, htt, h,
          Except.instMonad, Except.bind]
        simp
  · intro ht tw th hhsp h1 h2 h3 h4
    constructor <;>
      · simp only [Operation.eval, getKey, htv, htk, htt, hhsp,
          Except.instMonad, Except.bind]
        simp [asTensor, h1, h2, h3, h4]
  · intro ht tw th hw hh hhsp h1 h2 h3 h4 hne
    constructor <;>
      · simp only [Operation.eval, getKey, htv, htk, htt, hhsp,
          Except.instMonad, Except.bind]
        simp [asTensor, h1, h2, h3, h4, hne, writeTarget, getKey, htv, htk,
          Except.instMonad, Except.bind]

/-- **C8 witness.**  Concrete instances: missing key, `None` companion,
equal sizes (no-op), and a genuine resize. -/
theorem C8_unscale_witness :
    (Operation.eval TL0 (.UNSCALE_TORCH "bicubic" false) 0
        [(.s "target", .vstr "h"), (.s "h", .tensor tensorA)] = .error .keyError) ∧
    (Operation.eval TL0 (.UNSCALE_TORCH "bicubic" false) 0
        [(.s "target", .vstr "h"), (.s "h", .tensor tensorA), (.s "hsp", .pynone)] =
      .error .valueError) ∧
    (Operation.eval TL0 (.UNSCALE_TORCH "bicubic" false) 0
        [(.s "target", .vstr "h"), (.s "h", .tensor tensorA), (.s "hsp", .tensor tensorA)] =
      .ok ([(.s "target", .vstr "h"), (.s "h", .tensor tensorA), (.s "hsp", .tensor tensorA)], 0)) ∧
    (Operation.eval TL0 (.UNSCALE "slerp" "slerp" 0) 7
        [(.s "target", .vstr "h"), (.s "h", .tensor tensorA), (.s "hsp", .tensor tensorB)] =
      .ok (Dict.set
        [(.s "target", .vstr "h"), (.s "h", .tensor tensorA), (.s "hsp", .tensor tensorB)]
        (.s "h") (.tensor (TL0.scale_samples tensorA 16 16 "slerp" (some "slerp") 0)), 7)) := by
  refine ⟨?_, ?_, ?_, ?_⟩
  · exact ((C8_unscale_requires_companion TL0 "bicubic" "slerp" "slerp" false 0 0
      [(.s "target", .vstr "h"), (.s "h", .tensor tensorA)]
      (.vstr "h") (.s "h") tensorA rfl rfl rfl).1 rfl).1
  · exact ((C8_unscale_requires_companion TL0 "bicubic" "slerp" "slerp" false 0 0
      [(.s "target", .vstr "h"), (.s "h", .tensor tensorA), (.s "hsp", .pynone)]
      (.vstr "h") (.s "h") tensorA rfl rfl rfl).2.1 rfl).1
  · exact ((C8_unscale_requires_companion TL0 "bicubic" "slerp" "slerp" false 0 0
      [(.s "target", .vstr "h"), (.s "h", .tensor tensorA), (.s "hsp", .tensor tensorA)]
      (.vstr "h") (.s "h") tensorA rfl rfl rfl).2.2.1 tensorA 8 8 rfl rfl rfl rfl rfl).1
  · exact ((C8_unscale_requires_companion TL0 "bicubic" "slerp" "slerp" false 0 7
      [(.s "target", .vstr "h"), (.s "h", .tensor tensorA), (.s "hsp", .tensor tensorB)]
      (.vstr "h") (.s "h") tensorA rfl rfl rfl).2.2.2 tensorB 8 8 16 16
      rfl rfl rfl rfl rfl (by decide)).2

/-! ## C9: no-match pass-through -/

mutual

/-- If a rule and all rules reachable through its `nomatched` children
fail to match, evaluating it leaves the state (and counter) untouched. -/
theorem noMatch_eval (TL : TensorLib) :
    (r : Rule) → (IDX : Nat) → (state : Dict) → Rule.noMatch r state = true →
    Rule.eval TL r IDX state = .ok (state, IDX)
  | .mk conds ops matched nomatched, IDX, state, h => by
      simp only [Rule.noMatch] at h
      cases htest : ConditionGroup.test conds state with
      | error e => rw [htest] at h; simp at h
      | ok b =>
          cases b
          · rw [htest] at h
            simp only [Rule.eval, htest]
            exact noMatchList_eval TL nomatched IDX state h
          · rw [htest] at h; simp at h

/-- List version of `noMatch_eval`. -/
theorem noMatchList_eval (TL : TensorLib) :
    (rs : List Rule) → (IDX : Nat) → (state : Dict) → noMatchList rs state = true →
    evalRules TL rs IDX state = .ok (state, IDX)
  | [], _, _, _ => rfl
  | r :: rest, IDX, state, h => by
      simp only [noMatchList, Bool.and_eq_true] at h
      simp only [evalRules, noMatch_eval TL r IDX state h.1]
      exact noMatchList_eval TL rest IDX state h.2

end

/-- **C9.**  If no rule reachable during evaluation matches (every
condition group on the all-`nomatched` spine tests false), then
`RuleGroup.eval` returns the input state itself: in particular the
tensors bound to `h` and `hsp` are bit-identical to their inputs, and no
operation is executed. -/
theorem C9_nomatch_passthrough (TL : TensorLib) (rules : RuleGroup) (IDX : Nat)
    (state : Dict) (h : noMatchList rules state = true) :
    RuleGroup.eval TL rules IDX state = .ok (state, IDX) :=
  noMatchList_eval TL rules IDX state h

/-- **C9 witness.**  A two-level rule group (top rule with a `nomatched`
child) whose conditions all fail on a concrete state: evaluation returns
the state unchanged. -/
theorem C9_nomatch_witness :
    RuleGroup.eval TL0
      [.mk [.prim .BLOCK [.num 3]] [.MULTIPLY 2] []
        [.mk [.prim .BLOCK [.num 4]] [.MULTIPLY 3] [] []]] 0
      [(.ct .BLOCK, .num 7), (.s "h", .tensor tensorA), (.s "hsp", .pynone),
        (.s "target", .vstr "h")] =
      .ok ([(.ct .BLOCK, .num 7), (.s "h", .tensor tensorA), (.s "hsp", .pynone),
        (.s "target", .vstr "h")], 0) :=
  C9_nomatch_passthrough TL0 _ 0 _ (by decide)

/-! ## C4: percent → sigma → percent round trip -/

/-- Correctness of the `bisect_right` loop on a sorted table: with enough
fuel, all entries left of the result are `≤ x` and all entries from the
result on are `> x`. -/
theorem bisectRightFuel_char (a : List ℚ) (x : ℚ)
    (hsort : ∀ i j : Nat, i ≤ j → j < a.length → a.getD i 0 ≤ a.getD j 0) :
    ∀ (fuel lo hi : Nat), hi - lo ≤ fuel → lo ≤ hi → hi ≤ a.length →
      (∀ i, i < lo → a.getD i 0 ≤ x) →
      (∀ i, hi ≤ i → i < a.length → x < a.getD i 0) →
      lo ≤ bisectRightFuel a x fuel lo hi ∧ bisectRightFuel a x fuel lo hi ≤ hi ∧
        (∀ i, i < bisectRightFuel a x fuel lo hi → a.getD i 0 ≤ x) ∧
        (∀ i, bisectRightFuel a x fuel lo hi ≤ i → i < a.length → x < a.getD i 0) := by
  intro fuel
  induction fuel with
  | zero =>
      intro lo hi hf hlohi hhi inv1 inv2
      have he : hi = lo := by omega
      subst he
      simp only [bisectRightFuel]
      exact ⟨le_refl _, le_refl _, inv1, inv2⟩
  | succ fuel ih =>
      intro lo hi hf hlohi hhi inv1 inv2
      by_cases hlt : lo < hi
      · have hmidlt : (lo + hi) / 2 < hi := by omega
        have hmidge : lo ≤ (lo + hi) / 2 := by omega
        simp only [bisectRightFuel, if_pos hlt]
        by_cases hx : x < a.getD ((lo + hi) / 2) 0
        · rw [if_pos hx]
          have hinv2 : ∀ i, (lo + hi) / 2 ≤ i → i < a.length → x < a.getD i 0 := by
            intro i h1 h2
            exact lt_of_lt_of_le hx (hsort _ i h1 h2)
          have h2 := ih lo ((lo + hi) / 2) (by omega) (by omega) (by omega) inv1 hinv2
          exact ⟨h2.1, le_trans h2.2.1 (Nat.le_of_lt hmidlt), h2.2.2.1, h2.2.2.2⟩
        · rw [if_neg hx]
          push_neg at hx
          have hinv1 : ∀ i, i < (lo + hi) / 2 + 1 → a.getD i 0 ≤ x := by
            intro i h1
            exact le_trans (hsort i _ (by omega) (by omega)) hx
          have h2 := ih ((lo + hi) / 2 + 1) hi (by omega) (by omega) hhi hinv1 inv2
          exact ⟨le_trans (by omega) h2.1, h2.2.1, h2.2.2.1, h2.2.2.2⟩
      · have he : hi = lo := by omega
        subst he
        simp only [bisectRightFuel, if_neg hlt]
        exact ⟨le_refl _, le_refl _, inv1, inv2⟩

/-- `bisect.bisect_right` on a sorted table: the insertion point. -/
theorem bisect_right_spec (a : List ℚ) (x : ℚ)
    (hsort : ∀ i j : Nat, i ≤ j → j < a.length → a.getD i 0 ≤ a.getD j 0) :
    bisect_right a x ≤ a.length ∧
      (∀ i, i < bisect_right a x → a.getD i 0 ≤ x) ∧
      (∀ i, bisect_right a x ≤ i → i < a.length → x < a.getD i 0) := by
  have h := bisectRightFuel_char a x hsort (a.length + 1) 0 a.length
    (by omega) (by omega) (le_refl _) (by omega) (by omega)
  exact ⟨h.2.1, h.2.2.1, h.2.2.2⟩

theorem sig2pct_length (f : ℚ → ℚ) : (sig2pct f).length = pct_steps + 1 := by
  unfold sig2pct
  rw [List.length_map, List.length_reverse, List.length_range]

theorem sig2pct_getD (f : ℚ → ℚ) {j : Nat} (hj : j < pct_steps + 1) :
    (sig2pct f).getD j 0 = f (((pct_steps - j : Nat) : ℚ) / pct_steps) := by
  have hlen : j < (sig2pct f).length := by rw [sig2pct_length]; exact hj
  rw [List.getD_eq_getElem _ _ hlen]
  simp only [sig2pct, List.getElem_map, List.getElem_reverse, List.getElem_range,
    List.length_reverse, List.length_range, List.length_map]
  have heq : pct_steps + 1 - 1 - j = pct_steps - j := by omega
  rw [heq]

/-- Strict antitonicity of the host function makes the `sig2pct` table
ascending. -/
theorem sig2pct_sorted (f : ℚ → ℚ) (hmono : StrictAntiOn f (Set.Icc 0 1)) :
    ∀ i j : Nat, i ≤ j → j < (sig2pct f).length →
      (sig2pct f).getD i 0 ≤ (sig2pct f).getD j 0 := by
  have hle : ∀ a b : ℚ, a ∈ Set.Icc (0 : ℚ) 1 → b ∈ Set.Icc (0 : ℚ) 1 →
      a ≤ b → f b ≤ f a := by
    intro a b ha hb hab
    rcases eq_or_lt_of_le hab with h | h
    · rw [h]
    · exact le_of_lt (hmono ha hb h)
  have hargmem : ∀ j : Nat, j ≤ 400 → ((400 - (j : ℚ)) / 400) ∈ Set.Icc (0 : ℚ) 1 := by
    intro j hj
    have hjc : (j : ℚ) ≤ 400 := by exact_mod_cast hj
    constructor
    · apply div_nonneg (by linarith) (by norm_num)
    · rw [div_le_one (by norm_num)]
      have : (0 : ℚ) ≤ (j : ℚ) := by positivity
      linarith
  have hget : ∀ j : Nat, j ≤ 400 → (sig2pct f).getD j 0 = f ((400 - (j : ℚ)) / 400) := by
    intro j hj
    rw [sig2pct_getD f (by simp only [pct_steps]; omega)]
    congr 1
    rw [Nat.cast_sub (by simpa [pct_steps] using hj)]
    norm_num [pct_steps]
  intro i j hij hj
  rw [sig2pct_length] at hj
  have hj400 : j ≤ 400 := by simpa [pct_steps] using Nat.lt_succ_iff.mp hj
  have hi400 : i ≤ 400 := le_trans hij hj400
  rw [hget i hi400, hget j hj400]
  apply hle _ _ (hargmem j hj400) (hargmem i hi400)
  rw [div_le_div_iff (by norm_num) (by norm_num)]
  have : (i : ℚ) ≤ (j : ℚ) := by exact_mod_cast hij
  nlinarith

/-- The concrete host function `p2sLin` is strictly decreasing. -/
theorem p2sLin_strictAnti : StrictAntiOn p2sLin (Set.Icc 0 1) := by
  intro a _ b _ hab
  simp only [p2sLin]
  linarith

/-- **C4 (amended).**  For a strictly decreasing host `percent_to_sigma`
and any percent `p` with `0 < p ≤ 1`, the percent → sigma → percent round
trip through the 400-entry table succeeds and recovers `p` within `1/400`.
(At `p = 0` the claim fails: the lookup returns no percent at all — see
the counterexample.) -/
theorem C4_percent_roundtrip (f : ℚ → ℚ) (p : ℚ)
    (hmono : StrictAntiOn f (Set.Icc 0 1)) (hp0 : 0 < p) (hp1 : p ≤ 1) :
    ∃ pct : ℚ, get_pct (sig2pct f) [f p] = .ok (some pct) ∧ |pct - p| ≤ 1 / 400 := by
  have hpmem : p ∈ Set.Icc (0 : ℚ) 1 := ⟨le_of_lt hp0, hp1⟩
  have hle : ∀ a b : ℚ, a ∈ Set.Icc (0 : ℚ) 1 → b ∈ Set.Icc (0 : ℚ) 1 →
      a ≤ b → f b ≤ f a := by
    intro a b ha hb hab
    rcases eq_or_lt_of_le hab with h | h
    · rw [h]
    · exact le_of_lt (hmono ha hb h)
  have hargmem : ∀ j : Nat, j ≤ 400 → ((400 - (j : ℚ)) / 400) ∈ Set.Icc (0 : ℚ) 1 := by
    intro j hj
    have hjc : (j : ℚ) ≤ 400 := by exact_mod_cast hj
    constructor
    · apply div_nonneg (by linarith) (by norm_num)
    · rw [div_le_one (by norm_num)]
      have : (0 : ℚ) ≤ (j : ℚ) := by positivity
      linarith
  have hget : ∀ j : Nat, j ≤ 400 → (sig2pct f).getD j 0 = f ((400 - (j : ℚ)) / 400) := by
    intro j hj
    rw [sig2pct_getD f (by simp only [pct_steps]; omega)]
    congr 1
    rw [Nat.cast_sub (by simpa [pct_steps] using hj)]
    norm_num [pct_steps]
  have hspec := bisect_right_spec (sig2pct f) (f p) (sig2pct_sorted f hmono)
  have hlen401 : (sig2pct f).length = 401 := by
    rw [sig2pct_length]
    rfl
  set idx := bisect_right (sig2pct f) (f p) with hidx
  set m : Nat := Nat.floor ((400 : ℚ) - 400 * p) with hm
  have hv0 : (0 : ℚ) ≤ 400 - 400 * p := by linarith
  have hm1 : (m : ℚ) ≤ 400 - 400 * p := Nat.floor_le hv0
  have hm2 : (400 : ℚ) - 400 * p < m + 1 := Nat.lt_floor_add_one _
  have hm399 : m ≤ 399 := by
    by_contra hcon
    push_neg at hcon
    have : (400 : ℚ) ≤ m := by exact_mod_cast hcon
    linarith
  have hfact1 : (sig2pct f).getD m 0 ≤ f p := by
    rw [hget m (by omega)]
    apply hle p _ hpmem (hargmem m (by omega))
    rw [le_div_iff (by norm_num)]
    linarith
  have hfact2 : f p < (sig2pct f).getD (m + 1) 0 := by
    rw [hget (m + 1) (by omega)]
    apply hmono (hargmem (m + 1) (by omega)) hpmem
    rw [div_lt_iff (by norm_num)]
    push_cast
    linarith
  have hidxm : idx = m + 1 := by
    have hub : idx ≤ m + 1 := by
      by_contra hcon
      push_neg at hcon
      have := hspec.2.1 (m + 1) hcon
      linarith
    have hlb : m < idx := by
      by_contra hcon
      push_neg at hcon
      have := hspec.2.2 m hcon (by omega)
      linarith
    omega
  refine ⟨pct_incr * ((pct_steps : ℚ) - (idx : ℚ)), ?_, ?_⟩
  · simp only [get_pct, ← hidx]
    rw [if_neg (by rw [hlen401, hidxm]; omega)]
  · rw [hidxm]
    rw [abs_le]
    have hmc : ((m + 1 : Nat) : ℚ) = (m : ℚ) + 1 := by push_cast; ring
    rw [hmc]
    simp only [pct_incr, pct_steps]
    push_cast
    constructor <;> linarith

/-- The query sigma `1` is the maximum of the `p2sLin` table, so the
percent lookup fails (`None`). -/
theorem get_pct_sigmaMax_none : get_pct (sig2pct p2sLin) [(1 : ℚ)] = .ok none := by
  have hsort := sig2pct_sorted p2sLin p2sLin_strictAnti
  have hspec := bisect_right_spec (sig2pct p2sLin) 1 hsort
  have hlen : (sig2pct p2sLin).length = 401 := by
    rw [sig2pct_length]
    rfl
  have h400 : (sig2pct p2sLin).getD 400 0 = 1 := by
    rw [sig2pct_getD p2sLin (by norm_num [pct_steps])]
    norm_num [pct_steps, p2sLin]
  have hidx : bisect_right (sig2pct p2sLin) 1 = 401 := by
    rcases eq_or_lt_of_le (hlen ▸ hspec.1) with h | h
    · exact h
    · exfalso
      have hx := hspec.2.2 400 (by omega) (by omega)
      rw [h400] at hx
      exact lt_irrefl _ hx
  simp only [get_pct, hidx, hlen]
  rw [if_pos (by omega)]

/-- **C4 counterexample.**  At `p = 0` (sigma equal to the table's
maximum, i.e. the very start of sampling) the round trip does not return
a percent at all: `bisect_right` lands one past the table and `get_pct`
returns `None` — even for a perfectly monotonic host function. -/
theorem C4_counterexample :
    StrictAntiOn p2sLin (Set.Icc 0 1) ∧
    get_pct (sig2pct p2sLin) [p2sLin 0] = .ok none := by
  refine ⟨p2sLin_strictAnti, ?_⟩
  rw [show p2sLin 0 = (1 : ℚ) by norm_num [p2sLin]]
  exact get_pct_sigmaMax_none

/-- **C4 witness.**  The amended round trip at `f q = 1 - q`, `p = 1/2`. -/
theorem C4_percent_roundtrip_witness :
    ∃ pct : ℚ, get_pct (sig2pct p2sLin) [p2sLin (1 / 2)] = .ok (some pct) ∧
      |pct - 1 / 2| ≤ 1 / 400 :=
  C4_percent_roundtrip p2sLin (1 / 2)
    (by
      intro a _ b _ hab
      simp only [p2sLin]
      linarith)
    (by norm_num) (by norm_num)

/-! ## C1: out-of-range sigma skip behaviour -/

/-- **C1.**  When the percent lookup fails (query sigma at or above the
table maximum), the input/middle block patches do return `h` unchanged as
claimed; but the output-block patch returns only the single tensor `h`
(`return h`), not the claimed `(h, hsp)` pair, and the post-CFG patch
returns `None` (`return None`), not the claimed input `denoised` tensor.
Evaluated on a concrete monotone table with query sigma `1` (the table
maximum, so `bisect_right` lands past the end). -/
theorem C1_out_of_range_sigma_skip :
    block_patch TL0 [] (sig2pct p2sLin) none "input" 0 tensorA ⟨[1], (0, 3)⟩ =
      .ok (.tensor tensorA) ∧
    block_patch TL0 [] (sig2pct p2sLin) none "input_after_skip" 0 tensorA ⟨[1], (0, 3)⟩ =
      .ok (.tensor tensorA) ∧
    block_patch TL0 [] (sig2pct p2sLin) none "middle" 0 tensorA ⟨[1], (0, 3)⟩ =
      .ok (.tensor tensorA) ∧
    output_block_patch TL0 [] (sig2pct p2sLin) none 0 tensorA tensorB ⟨[1], (0, 3)⟩ =
      .ok (.single (.tensor tensorA)) ∧
    (.single (.tensor tensorA) : PatchResult) ≠ .pair (.tensor tensorA) (.tensor tensorB) ∧
    post_cfg_patch TL0 [] (sig2pct p2sLin) none 0 tensorA [1] = .ok none ∧
    (Except.ok none : Except Err (Option Value)) ≠ .ok (some (.tensor tensorA)) := by
  have hskip := get_pct_sigmaMax_none
  refine ⟨?_, ?_, ?_, ?_, by decide, ?_, by simp⟩
  · simp only [block_patch, make_state, hskip, Except.instMonad, Except.bind]
  · simp only [block_patch, make_state, hskip, Except.instMonad, Except.bind]
  · simp only [block_patch, make_state, hskip, Except.instMonad, Except.bind]
  · simp only [output_block_patch, make_state, hskip, Except.instMonad, Except.bind]
  · simp only [post_cfg_patch, hskip, Except.instMonad, Except.bind]

/-! ## C6: the operation frame property -/

theorem Dict.isSome_get_set_iff {d : Dict} {k0 : SKey} (h : (d.get k0).isSome)
    (v : Value) (k : SKey) :
    ((d.set k0 v).get k).isSome ↔ (d.get k).isSome := by
  by_cases he : k = k0
  · subst he
    simp [Dict.get_set_self, h]
  · rw [Dict.get_set_ne _ _ he]

/-- The trailing `state[state["target"]] = out` resolves to a plain
update of the target slot. -/
theorem writeTarget_eq {state : Dict} {tv : Value} {tk : SKey}
    (htv : state.get (.s "target") = some tv) (htk : targetKeyOf tv = .ok tk)
    (out : Tensor) : writeTarget state out = .ok (state.set tk (.tensor out)) := by
  simp only [writeTarget, getKey, htv, htk, Except.instMonad, Except.bind]

/-- Frame facts of the plain target-slot update. -/
theorem setTargetFrame {state : Dict} {tk : SKey} (out : Tensor) (IDX : Nat)
    (hnd : state.NoDupKeys) (htgt : (state.get (.s "target")).isSome)
    (hts : (state.get tk).isSome) (htkt : tk ≠ .s "target")
    (hfresh : ∀ j, IDX ≤ j → state.get (.temp j) = none) :
    (state.set tk (.tensor out)).NoDupKeys ∧
      (∀ k, ((state.set tk (.tensor out)).get k).isSome ↔ (state.get k).isSome) ∧
      (∀ k, k ≠ tk → (state.set tk (.tensor out)).get k = state.get k) ∧
      (∀ j, IDX ≤ j → (state.set tk (.tensor out)).get (.temp j) = none) ∧
      (state.set tk (.tensor out)).get (.s "target") = state.get (.s "target") := by
  have htkne : ∀ j, IDX ≤ j → tk ≠ .temp j := by
    intro j hj he
    rw [he, hfresh j hj] at hts
    simp at hts
  refine ⟨Dict.nodupKeys_set hnd _ _, fun k => Dict.isSome_get_set_iff hts _ k,
    fun k hk => Dict.get_set_ne _ _ hk, fun j hj => ?_,
    Dict.get_set_ne _ _ (Ne.symm htkt)⟩
  rw [Dict.get_set_ne _ _ (Ne.symm (htkne j hj))]
  exact hfresh j hj

/-- The size of a list sub-operation bounds it below its list. -/
theorem sizeOf_lt_of_mem_subops {o : Operation} :
    ∀ {subs : List (Option Operation)}, some o ∈ subs → sizeOf o < sizeOf subs := by
  intro subs h
  induction subs with
  | nil => simp at h
  | cons x rest ihm =>
      rcases List.mem_cons.mp h with he | hm
      · subst he
        simp
        omega
      · have := ihm hm
        simp
        omega

/-- Frame property of the sub-operation loop of `BLEND_OP` /
`MASK_EXAMPLE_OP`: provided every listed operation has the frame
property, a successful loop run preserves the key set, touches only the
scratch slot and the `"target"` key, and leaves all scratch slots above
the running counter absent. -/
theorem evalSubops_frame (TL : TensorLib) :
    ∀ (subs : List (Option Operation)),
      (∀ o, some o ∈ subs → FrameHolds TL o) →
      ∀ (tmp IDX : Nat) (state : Dict) (res : Dict × Nat),
        state.NoDupKeys → tmp < IDX →
        (state.get (.temp tmp)).isSome →
        (state.get (.s "target")).isSome →
        (∀ j, IDX ≤ j → state.get (.temp j) = none) →
        evalSubops TL subs tmp IDX state = .ok res →
        res.1.NoDupKeys ∧ IDX ≤ res.2 ∧
          (∀ k, (res.1.get k).isSome ↔ (state.get k).isSome) ∧
          (∀ k, k ≠ .temp tmp → k ≠ .s "target" → res.1.get k = state.get k) ∧
          (∀ j, IDX ≤ j → res.1.get (.temp j) = none) := by
  intro subs
  induction subs with
  | nil =>
      intro _ tmp IDX state res hnd htmp hpre htgt hfresh heval
      simp only [evalSubops] at heval
      injection heval with h
      subst h
      exact ⟨hnd, le_refl _, fun k => Iff.rfl, fun k _ _ => rfl, hfresh⟩
  | cons so rest ihs =>
      intro hIH tmp IDX state res hnd htmp hpre htgt hfresh heval
      cases so with
      | none =>
          simp only [evalSubops] at heval
          exact Except.noConfusion heval
      | some o =>
          simp only [evalSubops] at heval
          split at heval
          · exact Except.noConfusion heval
          · rename_i s2 c2 hev
            have hnd1 : (state.set (.s "target") (.tkey tmp)).NoDupKeys :=
              Dict.nodupKeys_set hnd _ _
            have htv1 : (state.set (.s "target") (.tkey tmp)).get (.s "target") =
                some (.tkey tmp) := Dict.get_set_self _ _ _
            have hts1 : ((state.set (.s "target") (.tkey tmp)).get (.temp tmp)).isSome := by
              rw [Dict.get_set_ne _ _ (by simp)]
              exact hpre
            have hfresh1 : ∀ j, IDX ≤ j →
                (state.set (.s "target") (.tkey tmp)).get (.temp j) = none := by
              intro j hj
              rw [Dict.get_set_ne _ _ (by simp)]
              exact hfresh j hj
            have hF := hIH o (List.mem_cons_self _ _) IDX
              (state.set (.s "target") (.tkey tmp)) (s2, c2) (.tkey tmp) (.temp tmp)
              hnd1 htv1 rfl hts1 (by simp) hfresh1 hev
            have hpre2 : (s2.get (.temp tmp)).isSome := (hF.2.2.1 _).mpr hts1
            have htgt2 : (s2.get (.s "target")).isSome := by
              rw [(hF.2.2.1 _)]
              rw [htv1]
              rfl
            have hfresh2 : ∀ j, c2 ≤ j → s2.get (.temp j) = none := by
              intro j hj
              exact hF.2.2.2.2.1 j (le_trans hF.2.1 hj)
            have hrest := ihs (fun o' ho' => hIH o' (List.mem_cons_of_mem _ ho'))
              tmp c2 s2 res hF.1 (lt_of_lt_of_le htmp hF.2.1) hpre2 htgt2 hfresh2 heval
            refine ⟨hrest.1, le_trans hF.2.1 hrest.2.1, ?_, ?_, ?_⟩
            · intro k
              exact (hrest.2.2.1 k).trans ((hF.2.2.1 k).trans
                (Dict.isSome_get_set_iff htgt _ k))
            · intro k hk1 hk2
              rw [hrest.2.2.2.1 k hk1 hk2, hF.2.2.2.1 k hk1 hk2,
                Dict.get_set_ne _ _ hk2]
            · intro j hj
              have hjtmp : (SKey.temp j) ≠ .temp tmp := by
                simp only [ne_eq, SKey.temp.injEq]
                omega
              by_cases hc2 : c2 ≤ j
              · exact hrest.2.2.2.2 j hc2
              · rw [hrest.2.2.2.1 _ hjtmp (by simp)]
                exact hF.2.2.2.2.1 j hj

/-- Every operation has the frame property (strong induction on the
operation's size; the sub-operation loop is handled by
`evalSubops_frame`). -/
theorem frameHolds_of_size (TL : TensorLib) :
    ∀ (N : Nat) (op : Operation), sizeOf op ≤ N → FrameHolds TL op := by
  intro N
  induction N using Nat.strong_induction_on with
  | _ N ih =>
      intro op hsz IDX state res tv tk hnd htv htk hts htkt hfresh heval
      obtain ⟨t0, ht0⟩ := Option.isSome_iff_exists.mp hts
      have htgtpres : (state.get (.s "target")).isSome := by rw [htv]; rfl
      have htkne : ∀ j, IDX ≤ j → tk ≠ .temp j := by
        intro j hj he
        rw [he, hfresh j hj] at hts
        simp at hts
      cases op
      case TARGET_SKIP flag =>
          simp only [Operation.eval, getKey, htv, htk, ht0,
            Except.instMonad, Except.bind] at heval
          repeat' split at heval
          all_goals first
            | exact Except.noConfusion heval
            | (injection heval with h
               subst h
               exact ⟨hnd, le_refl _, fun k => Iff.rfl, fun k _ _ => rfl, hfresh,
                 fun hf => by simp [Operation.isTargetSkip] at hf⟩)
            | (injection heval with h
               subst h
               refine ⟨Dict.nodupKeys_set hnd _ _, le_refl _,
                 fun k => Dict.isSome_get_set_iff htgtpres _ k,
                 fun k _ hk2 => Dict.get_set_ne _ _ hk2, fun j hj => ?_,
                 fun hf => by simp [Operation.isTargetSkip] at hf⟩
               rw [Dict.get_set_ne _ _ (by simp)]
               exact hfresh j hj)
      case BLEND_OP blendAmt mode subs =>
          simp only [Operation.eval, getKey, htv, htk, ht0,
            Except.instMonad, Except.bind] at heval
          split at heval
          · exact Except.noConfusion heval
          · rename_i t hat
            split at heval
            · exact Except.noConfusion heval
            · rename_i s2 c2 hsub
              have hIH : ∀ o, some o ∈ subs → FrameHolds TL o := by
                intro o ho
                have h2 := sizeOf_lt_of_mem_subops ho
                have h1 : sizeOf o < sizeOf (Operation.BLEND_OP blendAmt mode subs) := by
                  simp only [Operation.BLEND_OP.sizeOf_spec]
                  omega
                exact ih (sizeOf o) (lt_of_lt_of_le h1 hsz) o (le_refl _)
              have hnd1 : (state.set (.temp IDX) (.tensor t)).NoDupKeys :=
                Dict.nodupKeys_set hnd _ _
              have hpre1 : ((state.set (.temp IDX) (.tensor t)).get (.temp IDX)).isSome := by
                rw [Dict.get_set_self]
                rfl
              have htgt1 : ((state.set (.temp IDX) (.tensor t)).get (.s "target")).isSome := by
                rw [Dict.get_set_ne _ _ (by simp), htv]
                rfl
              have hfresh1 : ∀ j, IDX + 1 ≤ j →
                  (state.set (.temp IDX) (.tensor t)).get (.temp j) = none := by
                intro j hj
                rw [Dict.get_set_ne _ _ (by simp only [ne_eq, SKey.temp.injEq]; omega)]
                exact hfresh j (by omega)
              have hloop := evalSubops_frame TL subs hIH IDX (IDX + 1)
                (state.set (.temp IDX) (.tensor t)) (s2, c2) hnd1 (by omega)
                hpre1 htgt1 hfresh1 hsub
              have hpre2 : (s2.get (.temp IDX)).isSome := (hloop.2.2.1 _).mpr hpre1
              have hs3tmp : ((s2.set (.s "target") tv).get (.temp IDX)) =
                  s2.get (.temp IDX) := Dict.get_set_ne _ _ (by simp)
              obtain ⟨tmpv, htmpv⟩ := Option.isSome_iff_exists.mp hpre2
              simp only [getKey, hs3tmp, htmpv, Except.instMonad, Except.bind] at heval
              split at heval
              · exact Except.noConfusion heval
              · rename_i tmp htmp
                have htv4 : (((s2.set (.s "target") tv).del (.temp IDX)).get
                    (.s "target")) = some tv := by
                  rw [Dict.get_del_ne _ (by simp), Dict.get_set_self]
                simp only [writeTarget_eq htv4 htk, Except.instMonad, Except.bind] at heval
                injection heval with h
                subst h
                have htk_ne_tmp : tk ≠ .temp IDX := htkne IDX (le_refl _)
                have hnds3 : (s2.set (.s "target") tv).NoDupKeys :=
                  Dict.nodupKeys_set hloop.1 _ _
                refine ⟨?_, by have := hloop.2.1; omega, ?_, ?_, ?_, fun _ => ?_⟩
                · exact Dict.nodupKeys_set (Dict.nodupKeys_del hnds3 _) _ _
                · intro k
                  by_cases hktk : k = tk
                  · subst hktk
                    refine iff_of_true ?_ hts
                    rw [Dict.get_set_self]
                    rfl
                  · rw [Dict.get_set_ne _ _ hktk]
                    by_cases hktmp : k = .temp IDX
                    · subst hktmp
                      rw [Dict.get_del_self hnds3, hfresh IDX (le_refl _)]
                    · rw [Dict.get_del_ne _ hktmp]
                      by_cases hktgt : k = .s "target"
                      · subst hktgt
                        refine iff_of_true ?_ htgtpres
                        rw [Dict.get_set_self]
                        rfl
                      · rw [Dict.get_set_ne _ _ hktgt]
                        refine (hloop.2.2.1 k).trans ?_
                        rw [Dict.get_set_ne _ _ hktmp]
                · intro k hktk hktgt
                  rw [Dict.get_set_ne _ _ hktk]
                  by_cases hktmp : k = .temp IDX
                  · subst hktmp
                    rw [Dict.get_del_self hnds3]
                    exact (hfresh IDX (le_refl _)).symm
                  · rw [Dict.get_del_ne _ hktmp, Dict.get_set_ne _ _ hktgt,
                      hloop.2.2.2.1 k hktmp hktgt, Dict.get_set_ne _ _ hktmp]
                · intro j hj
                  by_cases hjI : j = IDX
                  · subst hjI
                    rw [Dict.get_set_ne _ _ (Ne.symm htk_ne_tmp),
                      Dict.get_del_self hnds3]
                  · rw [Dict.get_set_ne _ _ (Ne.symm (htkne j hj)),
                      Dict.get_del_ne _ (by simp only [ne_eq, SKey.temp.injEq]; omega),
                      Dict.get_set_ne _ _ (by simp)]
                    exact hloop.2.2.2.2 j (by omega)
                · rw [Dict.get_set_ne _ _ (Ne.symm htkt),
                    Dict.get_del_ne _ (by simp), Dict.get_set_self, htv]
      case MASK_EXAMPLE_OP scaleMode antialiasSize maskdef subs =>
          simp only [Operation.eval, getKey, htv, htk, ht0,
            Except.instMonad, Except.bind] at heval
          split at heval
          · exact Except.noConfusion heval
          · rename_i t hat
            split at heval
            · exact Except.noConfusion heval
            · rename_i w hw
              split at heval
              · exact Except.noConfusion heval
              · rename_i hh0 hhh
                split at heval
                · exact Except.noConfusion heval
                · rename_i s2 c2 hsub
                  have hIH : ∀ o, some o ∈ subs → FrameHolds TL o := by
                    intro o ho
                    have h2 := sizeOf_lt_of_mem_subops ho
                    have h1 : sizeOf o <
                        sizeOf (Operation.MASK_EXAMPLE_OP scaleMode antialiasSize maskdef subs) := by
                      simp only [Operation.MASK_EXAMPLE_OP.sizeOf_spec]
                      omega
                    exact ih (sizeOf o) (lt_of_lt_of_le h1 hsz) o (le_refl _)
                  have hnd1 : (state.set (.temp IDX) (.tensor t)).NoDupKeys :=
                    Dict.nodupKeys_set hnd _ _
                  have hpre1 : ((state.set (.temp IDX) (.tensor t)).get (.temp IDX)).isSome := by
                    rw [Dict.get_set_self]
                    rfl
                  have htgt1 : ((state.set (.temp IDX) (.tensor t)).get (.s "target")).isSome := by
                    rw [Dict.get_set_ne _ _ (by simp), htv]
                    rfl
                  have hfresh1 : ∀ j, IDX + 1 ≤ j →
                      (state.set (.temp IDX) (.tensor t)).get (.temp j) = none := by
                    intro j hj
                    rw [Dict.get_set_ne _ _ (by simp only [ne_eq, SKey.temp.injEq]; omega)]
                    exact hfresh j (by omega)
                  have hloop := evalSubops_frame TL subs hIH IDX (IDX + 1)
                    (state.set (.temp IDX) (.tensor t)) (s2, c2) hnd1 (by omega)
                    hpre1 htgt1 hfresh1 hsub
                  have hpre2 : (s2.get (.temp IDX)).isSome := (hloop.2.2.1 _).mpr hpre1
                  have hs3tmp : ((s2.set (.s "target") tv).get (.temp IDX)) =
                      s2.get (.temp IDX) := Dict.get_set_ne _ _ (by simp)
                  obtain ⟨tmpv, htmpv⟩ := Option.isSome_iff_exists.mp hpre2
                  simp only [getKey, hs3tmp, htmpv, Except.instMonad, Except.bind] at heval
                  split at heval
                  · exact Except.noConfusion heval
                  · rename_i tmp htmp
                    have htv4 : (((s2.set (.s "target") tv).del (.temp IDX)).get
                        (.s "target")) = some tv := by
                      rw [Dict.get_del_ne _ (by simp), Dict.get_set_self]
                    simp only [writeTarget_eq htv4 htk, Except.instMonad, Except.bind] at heval
                    injection heval with h
                    subst h
                    have htk_ne_tmp : tk ≠ .temp IDX := htkne IDX (le_refl _)
                    have hnds3 : (s2.set (.s "target") tv).NoDupKeys :=
                      Dict.nodupKeys_set hloop.1 _ _
                    refine ⟨?_, by have := hloop.2.1; omega, ?_, ?_, ?_, fun _ => ?_⟩
                    · exact Dict.nodupKeys_set (Dict.nodupKeys_del hnds3 _) _ _
                    · intro k
                      by_cases hktk : k = tk
                      · subst hktk
                        refine iff_of_true ?_ hts
                        rw [Dict.get_set_self]
                        rfl
                      · rw [Dict.get_set_ne _ _ hktk]
                        by_cases hktmp : k = .temp IDX
                        · subst hktmp
                          rw [Dict.get_del_self hnds3, hfresh IDX (le_refl _)]
                        · rw [Dict.get_del_ne _ hktmp]
                          by_cases hktgt : k = .s "target"
                          · subst hktgt
                            refine iff_of_true ?_ htgtpres
                            rw [Dict.get_set_self]
                            rfl
                          · rw [Dict.get_set_ne _ _ hktgt]
                            refine (hloop.2.2.1 k).trans ?_
                            rw [Dict.get_set_ne _ _ hktmp]
                    · intro k hktk hktgt
                      rw [Dict.get_set_ne _ _ hktk]
                      by_cases hktmp : k = .temp IDX
                      · subst hktmp
                        rw [Dict.get_del_self hnds3]
                        exact (hfresh IDX (le_refl _)).symm
                      · rw [Dict.get_del_ne _ hktmp, Dict.get_set_ne _ _ hktgt,
                          hloop.2.2.2.1 k hktmp hktgt, Dict.get_set_ne _ _ hktmp]
                    · intro j hj
                      by_cases hjI : j = IDX
                      · subst hjI
                        rw [Dict.get_set_ne _ _ (Ne.symm htk_ne_tmp),
                          Dict.get_del_self hnds3]
                      · rw [Dict.get_set_ne _ _ (Ne.symm (htkne j hj)),
                          Dict.get_del_ne _ (by simp only [ne_eq, SKey.temp.injEq]; omega),
                          Dict.get_set_ne _ _ (by simp)]
                        exact hloop.2.2.2.2 j (by omega)
                    · rw [Dict.get_set_ne _ _ (Ne.symm htkt),
                        Dict.get_del_ne _ (by simp), Dict.get_set_self, htv]
      all_goals (
        simp only [Operation.eval, getKey, htv, htk, ht0, writeTarget_eq htv htk,
          Except.instMonad, Except.bind] at heval
        repeat' split at heval
        all_goals first
          | exact Except.noConfusion heval
          | (injection heval with h
             subst h
             exact ⟨(setTargetFrame _ IDX hnd htgtpres hts htkt hfresh).1, le_refl _,
               (setTargetFrame _ IDX hnd htgtpres hts htkt hfresh).2.1,
               fun k hk _ =>
                 (setTargetFrame _ IDX hnd htgtpres hts htkt hfresh).2.2.1 k hk,
               (setTargetFrame _ IDX hnd htgtpres hts htkt hfresh).2.2.2.1,
               fun _ => (setTargetFrame _ IDX hnd htgtpres hts htkt hfresh).2.2.2.2⟩)
          | (injection heval with h
             subst h
             exact ⟨hnd, le_refl _, fun k => Iff.rfl, fun k _ _ => rfl, hfresh,
               fun _ => rfl⟩))

/-- **C6.**  Every operation evaluation (with the runtime invariants of
the evaluator: duplicate-free dict, target naming a present non-`target`
slot, scratch slots from the counter upward absent) preserves the set of
state keys, changes only the target slot and — for `TARGET_SKIP` — the
`"target"` key, and cleans up every scratch slot it creates (scratch
names are `temp{IDX}` with a strictly increasing counter, hence fresh per
nesting level). -/
theorem C6_operation_frame (TL : TensorLib) (op : Operation) : FrameHolds TL op :=
  frameHolds_of_size TL (sizeOf op) op (le_refl _)

/-- **C6 witness.**  A blend with a nested sub-operation on a concrete
state: evaluation succeeds, the key set is unchanged, the scratch slot
`temp5` is gone, and the target is restored. -/
theorem C6_operation_frame_witness :
    Dict.NoDupKeys
      [(.s "target", .vstr "h"), (.s "h", .tensor tensorA), (.s "hsp", .pynone)] ∧
    ∃ res : Dict × Nat,
      Operation.eval TL0 (.BLEND_OP 1 "m" [some (.MULTIPLY 2)]) 5
          [(.s "target", .vstr "h"), (.s "h", .tensor tensorA), (.s "hsp", .pynone)] =
        .ok res ∧
      res.1.NoDupKeys ∧ 5 ≤ res.2 ∧
      (∀ k, (res.1.get k).isSome ↔
        (Dict.get [(.s "target", .vstr "h"), (.s "h", .tensor tensorA),
          (.s "hsp", .pynone)] k).isSome) ∧
      (∀ j, 5 ≤ j → res.1.get (.temp j) = none) ∧
      res.1.get (.s "target") =
        Dict.get [(.s "target", .vstr "h"), (.s "h", .tensor tensorA),
          (.s "hsp", .pynone)] (.s "target") := by
  refine ⟨by decide, ?_⟩
  have hfresh : ∀ j, 5 ≤ j →
      Dict.get [(.s "target", .vstr "h"), (.s "h", .tensor tensorA),
        (.s "hsp", .pynone)] (.temp j) = none := by
    intro j _
    simp [Dict.get]
  have hB := C6_operation_frame TL0 (.BLEND_OP 1 "m" [some (.MULTIPLY 2)]) 5
    [(.s "target", .vstr "h"), (.s "h", .tensor tensorA), (.s "hsp", .pynone)]
    ([(.s "target", .vstr "h"), (.s "h", .tensor tensorA), (.s "hsp", .pynone)], 6)
    (.vstr "h") (.s "h") (by decide) rfl rfl (by decide) (by decide) hfresh rfl
  exact ⟨_, rfl, hB.1, hB.2.1, hB.2.2.1, hB.2.2.2.2.1, hB.2.2.2.2.2 rfl⟩

/-! ## C10: termination and unique-visit tree walk -/

mutual

/-- Any fuel of at least the node count of a rule tree suffices:
fuel-bounded evaluation agrees with the evaluator (so evaluation
terminates within a budget of one unit per node). -/
theorem Rule.evalFuel_eq (TL : TensorLib) :
    (r : Rule) → (fuel IDX : Nat) → (state : Dict) → Rule.size r ≤ fuel →
    Rule.evalFuel TL fuel r IDX state = some (Rule.eval TL r IDX state)
  | .mk conds ops m nm, fuel, IDX, state, h => by
      cases fuel with
      | zero => simp only [Rule.size] at h; omega
      | succ f =>
          cases htest : ConditionGroup.test conds state with
          | error e => simp only [Rule.evalFuel, Rule.eval, htest]
          | ok b =>
              cases b with
              | false =>
                  simp only [Rule.evalFuel, Rule.eval, htest]
                  exact evalRulesFuel_eq TL nm f IDX state
                    (by simp only [Rule.size] at h; omega)
              | true =>
                  cases hops : evalOps TL ops IDX (state.set (.s "target") (.vstr "h")) with
                  | error e => simp only [Rule.evalFuel, Rule.eval, htest, hops]
                  | ok pr =>
                      obtain ⟨s2, c2⟩ := pr
                      simp only [Rule.evalFuel, Rule.eval, htest, hops]
                      exact evalRulesFuel_eq TL m f c2 s2
                        (by simp only [Rule.size] at h; omega)

/-- List version of `Rule.evalFuel_eq`. -/
theorem evalRulesFuel_eq (TL : TensorLib) :
    (rs : List Rule) → (fuel IDX : Nat) → (state : Dict) → sizeRules rs ≤ fuel →
    evalRulesFuel TL fuel rs IDX state = some (evalRules TL rs IDX state)
  | [], _, _, _, _ => by simp only [evalRulesFuel, evalRules]
  | r :: rest, fuel, IDX, state, h => by
      have hr : Rule.size r ≤ fuel := by simp only [sizeRules] at h; omega
      simp only [evalRulesFuel, evalRules, Rule.evalFuel_eq TL r fuel IDX state hr]
      cases he : Rule.eval TL r IDX state with
      | error e => rfl
      | ok pr =>
          obtain ⟨s2, c2⟩ := pr
          exact evalRulesFuel_eq TL rest fuel c2 s2
            (by simp only [sizeRules] at h; omega)

end

mutual

/-- The trace-instrumented evaluator computes the same result as the
evaluator. -/
theorem Rule.evalTrace_eq (TL : TensorLib) :
    (r : Rule) → (p : RPath) → (IDX : Nat) → (state : Dict) →
    (Rule.evalTrace TL p r IDX state).1 = Rule.eval TL r IDX state
  | .mk conds ops m nm, p, IDX, state => by
      cases htest : ConditionGroup.test conds state with
      | error e => simp only [Rule.evalTrace, Rule.eval, htest]
      | ok b =>
          cases b with
          | false =>
              simp only [Rule.evalTrace, Rule.eval, htest]
              exact evalRulesTrace_eq TL nm p false 0 IDX state
          | true =>
              cases hops : evalOps TL ops IDX (state.set (.s "target") (.vstr "h")) with
              | error e => simp only [Rule.evalTrace, Rule.eval, htest, hops]
              | ok pr =>
                  obtain ⟨s2, c2⟩ := pr
                  simp only [Rule.evalTrace, Rule.eval, htest, hops]
                  exact evalRulesTrace_eq TL m p true 0 c2 s2

/-- List version of `Rule.evalTrace_eq`. -/
theorem evalRulesTrace_eq (TL : TensorLib) :
    (rs : List Rule) → (p : RPath) → (b : Bool) → (i IDX : Nat) → (state : Dict) →
    (evalRulesTrace TL p b i rs IDX state).1 = evalRules TL rs IDX state
  | [], _, _, _, _, _ => by simp only [evalRulesTrace, evalRules]
  | r :: rest, p, b, i, IDX, state => by
      cases hrt : Rule.evalTrace TL (p ++ [(b, i)]) r IDX state with
      | mk res tr =>
          have hres : Rule.eval TL r IDX state = res := by
            rw [← Rule.evalTrace_eq TL r (p ++ [(b, i)]) IDX state, hrt]
          simp only [evalRulesTrace, evalRules, hrt, hres]
          cases res with
          | error e => rfl
          | ok pr =>
              obtain ⟨s2, c2⟩ := pr
              exact evalRulesTrace_eq TL rest p b (i + 1) c2 s2

end

mutual

/-- Every path in a node's trace extends the node's own path. -/
theorem traceMem_rule (TL : TensorLib) :
    (r : Rule) → (p : RPath) → (IDX : Nat) → (state : Dict) → (q : RPath) →
    q ∈ (Rule.evalTrace TL p r IDX state).2 → pathLe p q
  | .mk conds ops m nm, p, IDX, state, q, hq => by
      cases htest : ConditionGroup.test conds state with
      | error e =>
          simp only [Rule.evalTrace, htest, List.mem_singleton] at hq
          exact ⟨[], by simp [hq]⟩
      | ok b =>
          cases b with
          | false =>
              simp only [Rule.evalTrace, htest, List.mem_cons] at hq
              rcases hq with hq | hq
              · exact ⟨[], by simp [hq]⟩
              · obtain ⟨j, t, _, he⟩ := traceMem_rules TL nm p false 0 IDX state q hq
                exact ⟨(false, j) :: t, he⟩
          | true =>
              cases hops : evalOps TL ops IDX (state.set (.s "target") (.vstr "h")) with
              | error e =>
                  simp only [Rule.evalTrace, htest, hops, List.mem_singleton] at hq
                  exact ⟨[], by simp [hq]⟩
              | ok pr =>
                  obtain ⟨s2, c2⟩ := pr
                  simp only [Rule.evalTrace, htest, hops, List.mem_cons] at hq
                  rcases hq with hq | hq
                  · exact ⟨[], by simp [hq]⟩
                  · obtain ⟨j, t, _, he⟩ := traceMem_rules TL m p true 0 c2 s2 q hq
                    exact ⟨(true, j) :: t, he⟩

/-- Every path in the trace of the child list at `(p, b)` starting at
index `i` goes through a child `(b, j)` of `p` with `j ≥ i`. -/
theorem traceMem_rules (TL : TensorLib) :
    (rs : List Rule) → (p : RPath) → (b : Bool) → (i IDX : Nat) →
    (state : Dict) → (q : RPath) →
    q ∈ (evalRulesTrace TL p b i rs IDX state).2 →
    ∃ j t, i ≤ j ∧ q = p ++ (b, j) :: t
  | [], p, b, i, IDX, state, q, hq => by
      simp only [evalRulesTrace, List.not_mem_nil] at hq
  | r :: rest, p, b, i, IDX, state, q, hq => by
      cases hrt : Rule.evalTrace TL (p ++ [(b, i)]) r IDX state with
      | mk res tr =>
          have hnode : ∀ u, u ∈ tr → pathLe (p ++ [(b, i)]) u := by
            intro u hu
            exact traceMem_rule TL r (p ++ [(b, i)]) IDX state u (by rw [hrt]; exact hu)
          cases res with
          | error e =>
              simp only [evalRulesTrace, hrt] at hq
              obtain ⟨t, he⟩ := hnode q hq
              exact ⟨i, t, le_refl _, by rw [he, List.append_assoc]; rfl⟩
          | ok pr =>
              obtain ⟨s2, c2⟩ := pr
              simp only [evalRulesTrace, hrt, List.mem_append] at hq
              rcases hq with hq | hq
              · obtain ⟨t, he⟩ := hnode q hq
                exact ⟨i, t, le_refl _, by rw [he, List.append_assoc]; rfl⟩
              · obtain ⟨j, t, hij, he⟩ := traceMem_rules TL rest p b (i + 1) c2 s2 q hq
                exact ⟨j, t, by omega, he⟩

end

mutual

/-- A node's trace has no duplicate paths. -/
theorem traceNodup_rule (TL : TensorLib) :
    (r : Rule) → (p : RPath) → (IDX : Nat) → (state : Dict) →
    (Rule.evalTrace TL p r IDX state).2.Nodup
  | .mk conds ops m nm, p, IDX, state => by
      cases htest : ConditionGroup.test conds state with
      | error e => simp [Rule.evalTrace, htest]
      | ok b =>
          cases b with
          | false =>
              simp only [Rule.evalTrace, htest]
              refine List.nodup_cons.mpr
                ⟨?_, traceNodup_rules TL nm p false 0 IDX state⟩
              intro hp
              obtain ⟨j, t, _, he⟩ := traceMem_rules TL nm p false 0 IDX state p hp
              have hlen := congrArg List.length he
              simp at hlen
          | true =>
              cases hops : evalOps TL ops IDX (state.set (.s "target") (.vstr "h")) with
              | error e => simp [Rule.evalTrace, htest, hops]
              | ok pr =>
                  obtain ⟨s2, c2⟩ := pr
                  simp only [Rule.evalTrace, htest, hops]
                  refine List.nodup_cons.mpr
                    ⟨?_, traceNodup_rules TL m p true 0 c2 s2⟩
                  intro hp
                  obtain ⟨j, t, _, he⟩ := traceMem_rules TL m p true 0 c2 s2 p hp
                  have hlen := congrArg List.length he
                  simp at hlen

/-- The trace of a child list has no duplicate paths: the head child's
subtree paths carry index `i` at position `p.length`, the tail's carry
indices at least `i + 1`. -/
theorem traceNodup_rules (TL : TensorLib) :
    (rs : List Rule) → (p : RPath) → (b : Bool) → (i IDX : Nat) → (state : Dict) →
    (evalRulesTrace TL p b i rs IDX state).2.Nodup
  | [], p, b, i, IDX, state => by simp [evalRulesTrace]
  | r :: rest, p, b, i, IDX, state => by
      cases hrt : Rule.evalTrace TL (p ++ [(b, i)]) r IDX state with
      | mk res tr =>
          have hnodeNodup : tr.Nodup := by
            have hn := traceNodup_rule TL r (p ++ [(b, i)]) IDX state
            rw [hrt] at hn
            exact hn
          have hnodeMem : ∀ u, u ∈ tr → pathLe (p ++ [(b, i)]) u := by
            intro u hu
            exact traceMem_rule TL r (p ++ [(b, i)]) IDX state u (by rw [hrt]; exact hu)
          cases res with
          | error e =>
              simp only [evalRulesTrace, hrt]
              exact hnodeNodup
          | ok pr =>
              obtain ⟨s2, c2⟩ := pr
              simp only [evalRulesTrace, hrt]
              refine List.nodup_append.mpr
                ⟨hnodeNodup, traceNodup_rules TL rest p b (i + 1) c2 s2, ?_⟩
              intro q hq hq2
              obtain ⟨t1, he1⟩ := hnodeMem q hq
              obtain ⟨j, t2, hij, he2⟩ := traceMem_rules TL rest p b (i + 1) c2 s2 q hq2
              rw [List.append_assoc] at he1
              rw [he1] at he2
              have h3 := List.append_cancel_left he2
              simp only [List.singleton_append, List.cons.injEq, Prod.mk.injEq] at h3
              omega

end

mutual

/-- A node's trace has at most as many entries as the subtree has
nodes. -/
theorem traceLen_rule (TL : TensorLib) :
    (r : Rule) → (p : RPath) → (IDX : Nat) → (state : Dict) →
    (Rule.evalTrace TL p r IDX state).2.length ≤ Rule.size r
  | .mk conds ops m nm, p, IDX, state => by
      cases htest : ConditionGroup.test conds state with
      | error e => simp [Rule.evalTrace, htest, Rule.size]; omega
      | ok b =>
          cases b with
          | false =>
              have hrec := traceLen_rules TL nm p false 0 IDX state
              simp only [Rule.evalTrace, htest, List.length_cons, Rule.size]
              omega
          | true =>
              cases hops : evalOps TL ops IDX (state.set (.s "target") (.vstr "h")) with
              | error e => simp [Rule.evalTrace, htest, hops, Rule.size]; omega
              | ok pr =>
                  obtain ⟨s2, c2⟩ := pr
                  have hrec := traceLen_rules TL m p true 0 c2 s2
                  simp only [Rule.evalTrace, htest, hops, List.length_cons, Rule.size]
                  omega

/-- List version of `traceLen_rule`. -/
theorem traceLen_rules (TL : TensorLib) :
    (rs : List Rule) → (p : RPath) → (b : Bool) → (i IDX : Nat) → (state : Dict) →
    (evalRulesTrace TL p b i rs IDX state).2.length ≤ sizeRules rs
  | [], p, b, i, IDX, state => by simp [evalRulesTrace, sizeRules]
  | r :: rest, p, b, i, IDX, state => by
      cases hrt : Rule.evalTrace TL (p ++ [(b, i)]) r IDX state with
      | mk res tr =>
          have hnode : tr.length ≤ Rule.size r := by
            have hl := traceLen_rule TL r (p ++ [(b, i)]) IDX state
            rw [hrt] at hl
            exact hl
          cases res with
          | error e =>
              simp only [evalRulesTrace, hrt, sizeRules]
              have : 0 ≤ sizeRules rest := Nat.zero_le _
              omega
          | ok pr =>
              obtain ⟨s2, c2⟩ := pr
              have hrec := traceLen_rules TL rest p b (i + 1) c2 s2
              simp only [evalRulesTrace, hrt, sizeRules, List.length_append]
              omega

end

/-- **C10.**  Rule-tree evaluation is a terminating walk that visits each
reachable node exactly once: (a) a fuel budget of one unit per tree node
makes the fuel-bounded evaluator agree with the evaluator (termination
within the tree's size); (b) the trace-instrumented evaluator — which
records the tree path of every rule node visited, each node recursing
into exactly one of its `matched`/`nomatched` child lists, top-level
rules in declared order — computes the same result; (c) the visit trace
contains no path twice; (d) it visits at most one path per tree node. -/
theorem C10_rule_tree_walk (TL : TensorLib) (rules : RuleGroup) (IDX : Nat)
    (state : Dict) :
    (∀ fuel, sizeRules rules ≤ fuel →
      RuleGroup.evalFuel TL fuel rules IDX state =
        some (RuleGroup.eval TL rules IDX state)) ∧
    (RuleGroup.evalTrace TL rules IDX state).1 =
      RuleGroup.eval TL rules IDX state ∧
    (RuleGroup.evalTrace TL rules IDX state).2.Nodup ∧
    (RuleGroup.evalTrace TL rules IDX state).2.length ≤ sizeRules rules :=
  ⟨fun fuel hf => evalRulesFuel_eq TL rules fuel IDX state hf,
    evalRulesTrace_eq TL rules [] true 0 IDX state,
    traceNodup_rules TL rules [] true 0 IDX state,
    traceLen_rules TL rules [] true 0 IDX state⟩

/-- **C10 witness.**  A concrete two-node rule tree: fuel 2 (its node
count) suffices and reproduces the evaluator's result, and the trace
visits the two nodes once each. -/
theorem C10_rule_tree_walk_witness :
    sizeRules
        [Rule.mk [.prim .BLOCK [.num 3]] [.MULTIPLY 2] []
          [Rule.mk [.prim .BLOCK [.num 4]] [.MULTIPLY 3] [] []]] ≤ 2 ∧
    RuleGroup.evalFuel TL0 2
        [Rule.mk [.prim .BLOCK [.num 3]] [.MULTIPLY 2] []
          [Rule.mk [.prim .BLOCK [.num 4]] [.MULTIPLY 3] [] []]] 0
        [(.ct .BLOCK, .num 7), (.s "h", .tensor tensorA), (.s "target", .vstr "h")] =
      some (RuleGroup.eval TL0
        [Rule.mk [.prim .BLOCK [.num 3]] [.MULTIPLY 2] []
          [Rule.mk [.prim .BLOCK [.num 4]] [.MULTIPLY 3] [] []]] 0
        [(.ct .BLOCK, .num 7), (.s "h", .tensor tensorA), (.s "target", .vstr "h")]) ∧
    (RuleGroup.evalTrace TL0
        [Rule.mk [.prim .BLOCK [.num 3]] [.MULTIPLY 2] []
          [Rule.mk [.prim .BLOCK [.num 4]] [.MULTIPLY 3] [] []]] 0
        [(.ct .BLOCK, .num 7), (.s "h", .tensor tensorA), (.s "target", .vstr "h")]).2.Nodup ∧
    (RuleGroup.evalTrace TL0
        [Rule.mk [.prim .BLOCK [.num 3]] [.MULTIPLY 2] []
          [Rule.mk [.prim .BLOCK [.num 4]] [.MULTIPLY 3] [] []]] 0
        [(.ct .BLOCK, .num 7), (.s "h", .tensor tensorA), (.s "target", .vstr "h")]).2.length ≤
      sizeRules
        [Rule.mk [.prim .BLOCK [.num 3]] [.MULTIPLY 2] []
          [Rule.mk [.prim .BLOCK [.num 4]] [.MULTIPLY 3] [] []]] := by
  have h := C10_rule_tree_walk TL0
    [Rule.mk [.prim .BLOCK [.num 3]] [.MULTIPLY 2] []
      [Rule.mk [.prim .BLOCK [.num 4]] [.MULTIPLY 3] [] []]] 0
    [(.ct .BLOCK, .num 7), (.s "h", .tensor tensorA), (.s "target", .vstr "h")]
  exact ⟨by decide, h.1 2 (by decide), h.2.2.1, h.2.2.2⟩

end Bleh
